import Mathlib

/-!
# byte-analyzer: a shallow embedding of `main.go`

The program counts byte values of its input files in a 256-bucket histogram,
normalises the histogram to 8-bit intensities, lays them out on a 16x16
grayscale raster and optionally upscales the raster by block replication.

Go's `int` is modelled as `Int` reduced to the two's-complement range of a
`w`-bit word after every arithmetic operation (`w` is 64 on amd64/arm64 and 32
on 32-bit targets; Go has no narrower `int`); `uint8` is modelled as `Nat`
reduced modulo 256.  The
package-level variables `includeZero`, `scale` and `excludePatterns` are passed
as explicit arguments.
-/

namespace ByteAnalyzer

/-! ## Machine integers -/

/-- Half of the modulus of the platform `int` of `w` bits: `2^(w-1)`, the first
value it cannot hold.  Go's `int` has at least 32 bits, so a width below 32 is
read as 32. -/
def intHalf (w : Nat) : Int := ((2 ^ (max w 32 - 1) : Nat) : Int)

/-- Two's-complement reduction of a mathematical integer to a `w`-bit Go `int`. -/
def wrapInt (w : Nat) (x : Int) : Int :=
  (x + intHalf w) % (2 * intHalf w) - intHalf w

/-- The values a `w`-bit Go `int` can hold. -/
def InIntRange (w : Nat) (x : Int) : Prop :=
  -intHalf w ≤ x ∧ x < intHalf w

instance (w : Nat) (x : Int) : Decidable (InIntRange w x) := by
  unfold InIntRange; infer_instance

/-- Go `a + b` on `int`. -/
def goAdd (w : Nat) (a b : Int) : Int := wrapInt w (a + b)

/-- Go `a * b` on `int`. -/
def goMul (w : Nat) (a b : Int) : Int := wrapInt w (a * b)

/-- Go `a / b` on `int`: the quotient truncated toward zero; `none` is the
run-time panic on a zero divisor. -/
def goDiv (w : Nat) (a b : Int) : Option Int :=
  if b = 0 then none else some (wrapInt w (Int.tdiv a b))

/-- Go conversion `uint8(v)` of an `int`: the low eight bits. -/
def toUint8 (v : Int) : Nat := (v % 256).toNat

/-- Go `a - b` on `uint8`. -/
def subUint8 (a b : Nat) : Nat := (a % 256 + 256 - b % 256) % 256

/-! ## Histograms -/

/-- A byte value. -/
abbrev Byte := Fin 256

/-- The type `ByteCount [256]int`. -/
abbrev ByteCount := Byte → Int

/-- The type `[256]uint8` of normalised counts. -/
abbrev Normalized := Byte → Nat

/-- The zero value of `ByteCount`. -/
def zeroCount : ByteCount := fun _ => 0

/-- The zero value of `[256]uint8`. -/
def zeroNormalized : Normalized := fun _ => 0

/-- Array assignment `arr[i] = v`. -/
def setAt {α : Type} (arr : Byte → α) (i : Byte) (v : α) : Byte → α :=
  fun j => if j = i then v else arr j

/-- The index sequence `0, 1, ..., 255` of `for i := range arr`. -/
def byteRange : List Byte := List.finRange 256

/-! ## normalizeByteCount -/

/-- First loop of `normalizeByteCount`: the scale reference `maxVal`. -/
def maxValOf (includeZero : Bool) (byteCounts : ByteCount) : Int :=
  byteRange.foldl
    (fun maxVal i =>
      if byteCounts i > maxVal ∧ (includeZero = true ∨ i ≠ 0) then byteCounts i else maxVal)
    0

/-- Second loop of `normalizeByteCount`, for a given `maxVal`; `none` when an
iteration panics. -/
def normalizeLoop (w : Nat) (byteCounts : ByteCount) (maxVal : Int) : Option Normalized :=
  byteRange.foldlM
    (fun normalized i =>
      (goDiv w (goMul w (byteCounts i) 255) maxVal).bind fun q =>
        some (setAt normalized i (toUint8 q)))
    zeroNormalized

/-- The function `normalizeByteCount`; `none` when it panics. -/
def normalizeByteCount (w : Nat) (includeZero : Bool) (byteCounts : ByteCount) :
    Option Normalized :=
  let maxVal := maxValOf includeZero byteCounts
  if maxVal = 0 then some zeroNormalized
  else normalizeLoop w byteCounts maxVal

/-! ## addByteCounts -/

/-- The variables of one call of `addByteCounts`: the by-value parameters `a`,
`b` and the named result `sum`. -/
structure AddFrame where
  a : ByteCount
  b : ByteCount
  sum : ByteCount

/-- The body of `addByteCounts` run on its frame. -/
def addByteCountsFrame (w : Nat) (a b : ByteCount) : AddFrame :=
  byteRange.foldl
    (fun fr i => { fr with sum := setAt fr.sum i (goAdd w (fr.a i) (fr.b i)) })
    { a := a, b := b, sum := zeroCount }

/-- The function `addByteCounts`. -/
def addByteCounts (w : Nat) (a b : ByteCount) : ByteCount :=
  (addByteCountsFrame w a b).sum

/-! ## scanReader -/

/-- The error value returned by a `Read` call. -/
inductive ReadError where
  | eof : ReadError
  | other : Nat → ReadError
  deriving DecidableEq

/-- The outcome of one `reader.Read(buf)` call: the bytes `buf[0:n]` it stored
and the error it returned (`none` is `nil`). -/
structure ReadResult where
  data : List Byte
  err : Option ReadError

/-- The inner loop `for i := 0; i < n; i++ { byteCounts[buf[i]]++ }`. -/
def countChunk (w : Nat) (byteCounts : ByteCount) (data : List Byte) : ByteCount :=
  data.foldl (fun bc b => setAt bc b (goAdd w (bc b) 1)) byteCounts

/-- The read loop of `scanReader` against the successive results of the
reader's `Read` calls.  `none` means the loop is still reading when the listed
results are used up: the function has not returned. -/
def scanLoop (w : Nat) : List ReadResult → ByteCount → Option (ByteCount × Option ReadError)
  | [], _ => none
  | r :: rest, byteCounts =>
    match r.err with
    | some ReadError.eof => some (byteCounts, none)
    | some e => some (byteCounts, some e)
    | none => scanLoop w rest (countChunk w byteCounts r.data)

/-- The function `scanReader`. -/
def scanReader (w : Nat) (reads : List ReadResult) : Option (ByteCount × Option ReadError) :=
  scanLoop w reads zeroCount

/-- Reads that deliver the given chunks with a `nil` error, one chunk per
`Read` call, followed by a final call that returns no bytes and `io.EOF`. -/
def cleanReads (chunks : List (List Byte)) : List ReadResult :=
  chunks.map (fun c => { data := c, err := none }) ++ [{ data := [], err := some ReadError.eof }]

/-- Sum of the 256 buckets of a histogram. -/
def bucketSum (byteCounts : ByteCount) : Int :=
  (byteRange.map byteCounts).sum

/-- Total number of bytes returned by a sequence of `Read` calls. -/
def bytesReturned (reads : List ReadResult) : Nat :=
  (reads.map (fun r => r.data.length)).sum

/-! ## Grayscale images

The Go standard library types `image.Rectangle` and `image.Gray`, by their
documented behaviour.  The fields of a rectangle are Go `int` values; sizes and
coordinates computed from them wrap like every `int`, and `image.NewGray`
panics on a negative or overflowing size.  Running out of memory is not
modelled: an allocation of a size that fits an `int` is taken to succeed. -/

/-- The type `image.Rectangle`: the points with `minX ≤ x < maxX` and
`minY ≤ y < maxY`. -/
structure Rectangle where
  minX : Int
  minY : Int
  maxX : Int
  maxY : Int
  deriving DecidableEq

/-- The function `image.Rect`: the rectangle with the given corners, which are
swapped where needed so that the result is well formed. -/
def Rect (x0 y0 x1 y1 : Int) : Rectangle :=
  { minX := if x0 > x1 then x1 else x0
    minY := if y0 > y1 then y1 else y0
    maxX := if x0 > x1 then x0 else x1
    maxY := if y0 > y1 then y0 else y1 }

/-- The width `maxX - minX` of a rectangle, as a mathematical integer. -/
def Rectangle.Dx (r : Rectangle) : Int := r.maxX - r.minX

/-- The height `maxY - minY` of a rectangle, as a mathematical integer. -/
def Rectangle.Dy (r : Rectangle) : Int := r.maxY - r.minY

/-- The method `Rectangle.Dx` as Go computes it: the width as an `int`. -/
def goDx (w : Nat) (r : Rectangle) : Int := wrapInt w (r.maxX - r.minX)

/-- The method `Rectangle.Dy` as Go computes it: the height as an `int`. -/
def goDy (w : Nat) (r : Rectangle) : Int := wrapInt w (r.maxY - r.minY)

/-- The test `Point{x, y}.In(r)`. -/
def Rectangle.Contains (r : Rectangle) (x y : Int) : Prop :=
  r.minX ≤ x ∧ x < r.maxX ∧ r.minY ≤ y ∧ y < r.maxY

instance (r : Rectangle) (x y : Int) : Decidable (r.Contains x y) := by
  unfold Rectangle.Contains; infer_instance

/-- The type `image.Gray`: a bounding rectangle and one 8-bit intensity for every
point. Only the points inside `rect` are observable. -/
structure Gray where
  rect : Rectangle
  pix : Int → Int → Nat

/-- The image with bounds `r` in which every pixel is zero. -/
def zeroImage (r : Rectangle) : Gray := { rect := r, pix := fun _ _ => 0 }

/-- The function `image.NewGray`: the zero image on `r`; `none` is its panic
when the width or the height is negative or the pixel count does not fit an
`int`. -/
def NewGray (w : Nat) (r : Rectangle) : Option Gray :=
  if goDx w r < 0 ∨ goDy w r < 0 ∨ intHalf w ≤ goDx w r * goDy w r then none
  else some (zeroImage r)

/-- The method `Gray.Set` with a `color.Gray` value: writes the pixel when the
point lies in the bounds and does nothing otherwise. -/
def Gray.Set (img : Gray) (x y : Int) (c : Nat) : Gray :=
  if img.rect.Contains x y then
    { img with pix := fun a b => if a = x ∧ b = y then c else img.pix a b }
  else img

/-- The method `Gray.At`: the stored intensity inside the bounds, the zero
colour outside. -/
def Gray.At (img : Gray) (x y : Int) : Nat :=
  if img.rect.Contains x y then img.pix x y else 0

/-- A counting loop `for k := 0; k < n; k++ { body }` over a Go `int` bound. -/
def forInt {σ : Type} (n : Int) (s : σ) (body : σ → Int → σ) : σ :=
  (List.range n.toNat).foldl (fun st (k : Nat) => body st (k : Int)) s

/-! ## byteCountToImage and resizeImage -/

/-- The pixel loop of `byteCountToImage` over the normalised counts, run on the
image `img`. -/
def rasterLoop (normalized : Normalized) (img : Gray) : Gray :=
  let size : Int := 16
  byteRange.foldl
    (fun img i =>
      let x := (i.val : Int) % size
      let y := (i.val : Int) / size
      img.Set x y (subUint8 255 (normalized i)))
    img

/-- The function `byteCountToImage`; `none` when `normalizeByteCount` or
`image.NewGray` panics. -/
def byteCountToImage (w : Nat) (includeZero : Bool) (byteCounts : ByteCount) : Option Gray :=
  let size : Int := 16
  (normalizeByteCount w includeZero byteCounts).bind fun normalized =>
    (NewGray w (Rect 0 0 size size)).map fun img => rasterLoop normalized img

/-- The image `byteCountToImage` builds from the normalised counts: the pixel
loop run on the zero 16x16 image. -/
def rasterImage (normalized : Normalized) : Gray :=
  rasterLoop normalized (zeroImage (Rect 0 0 16 16))

/-- The four nested loops of `resizeImage`, run on the image `resized`; the
coordinates `x*multiplier+i` and `y*multiplier+j` are Go `int` expressions. -/
def resizeLoops (w : Nat) (img : Gray) (multiplier width height : Int) (resized : Gray) :
    Gray :=
  forInt width resized fun r1 x =>
    forInt height r1 fun r2 y =>
      forInt multiplier r2 fun r3 i =>
        forInt multiplier r3 fun r4 j =>
          r4.Set (goAdd w (goMul w x multiplier) i) (goAdd w (goMul w y multiplier) j)
            (img.At x y)

/-- The function `resizeImage`; `none` when `image.NewGray` panics. -/
def resizeImage (w : Nat) (img : Gray) (multiplier : Int) : Option Gray :=
  let width := goDx w img.rect
  let height := goDy w img.rect
  (NewGray w (Rect 0 0 (goMul w width multiplier) (goMul w height multiplier))).map
    (resizeLoops w img multiplier width height)

/-! ## isExcluded, scanPath and run

The file system and the library calls of the driver are parameters: `matchFn`
is `filepath.Match`, `globFn` is `filepath.Glob`, `openFn` is `os.Open` (the
successive `Read` results of the opened file, or the error), `encodeFn` is
`png.Encode` on standard output.  The progress line on standard error is not
modelled. -/

/-- A Go `error` value: `io.EOF` or any other error. -/
abbrev GoError := ReadError

/-- The function `isExcluded`, as the pair `(excluded, err)` it returns. -/
def isExcluded (matchFn : String → String → Bool × Option GoError) :
    List String → String → Bool × Option GoError
  | [], _ => (false, none)
  | pattern :: rest, path =>
    match matchFn pattern path with
    | (_, some err) => (false, some err)
    | (true, none) => (true, none)
    | (false, none) => isExcluded matchFn rest path

/-- The function `scanPath`; `none` when the read loop does not return. -/
def scanPath (w : Nat) (openFn : String → Except GoError (List ReadResult)) (path : String) :
    Option (ByteCount × Option GoError) :=
  match openFn path with
  | Except.error err => some (zeroCount, some err)
  | Except.ok reads => scanReader w reads

/-- The inner loop of `run` over the files matched by one glob: the cumulative
histogram after the loop, or the error `run` returns; `none` when a scan does
not return. -/
def runFiles (w : Nat) (matchFn : String → String → Bool × Option GoError)
    (excludePatterns : List String) (openFn : String → Except GoError (List ReadResult)) :
    List String → ByteCount → Option (Except GoError ByteCount)
  | [], cumulative => some (Except.ok cumulative)
  | file :: rest, cumulative =>
    match isExcluded matchFn excludePatterns file with
    | (_, some err) => some (Except.error err)
    | (true, none) => runFiles w matchFn excludePatterns openFn rest cumulative
    | (false, none) =>
      match scanPath w openFn file with
      | none => none
      | some (_, some err) => some (Except.error err)
      | some (counts, none) =>
        runFiles w matchFn excludePatterns openFn rest (addByteCounts w cumulative counts)

/-- The outer loop of `run` over the positional arguments. -/
def runCumulative (w : Nat) (matchFn : String → String → Bool × Option GoError)
    (excludePatterns : List String) (globFn : String → List String × Option GoError)
    (openFn : String → Except GoError (List ReadResult)) :
    List String → ByteCount → Option (Except GoError ByteCount)
  | [], cumulative => some (Except.ok cumulative)
  | pattern :: rest, cumulative =>
    match globFn pattern with
    | (_, some err) => some (Except.error err)
    | (files, none) =>
      match runFiles w matchFn excludePatterns openFn files cumulative with
      | none => none
      | some (Except.error err) => some (Except.error err)
      | some (Except.ok cumulative') =>
        runCumulative w matchFn excludePatterns globFn openFn rest cumulative'

/-- The raster step of `run`: `byteCountToImage` and then `resizeImage` when
`scale > 1`. -/
def runRaster (w : Nat) (includeZero : Bool) (scale : Int) (cumulative : ByteCount) :
    Option Gray :=
  (byteCountToImage w includeZero cumulative).bind fun img =>
    if scale > 1 then resizeImage w img scale else some img

/-- How a call of `run` ends. -/
inductive RunResult where
  | usage : RunResult
  | failed : GoError → RunResult
  | encoded : Gray → Option GoError → RunResult

/-- The function `run` after flag parsing: `usage` when there is no positional
argument, `failed err` when a loop returns `err`, `encoded img err` when `img`
is handed to `png.Encode` and `run` returns its `err`; `none` when `run` does
not return. -/
def run (w : Nat) (includeZero : Bool) (scale : Int) (excludePatterns : List String)
    (matchFn : String → String → Bool × Option GoError)
    (globFn : String → List String × Option GoError)
    (openFn : String → Except GoError (List ReadResult))
    (encodeFn : Gray → Option GoError) (args : List String) : Option RunResult :=
  if args.length = 0 then some RunResult.usage
  else
    match runCumulative w matchFn excludePatterns globFn openFn args zeroCount with
    | none => none
    | some (Except.error err) => some (RunResult.failed err)
    | some (Except.ok cumulative) =>
      match runRaster w includeZero scale cumulative with
      | none => none
      | some img => some (RunResult.encoded img (encodeFn img))

/-! ## Inputs used in concrete evaluations -/

/-- A histogram in which bucket 0 holds 2, bucket 1 holds 1 and every other
bucket is empty. -/
def zeroHeavy : ByteCount := fun i => if i = 0 then 2 else if i = 1 then 1 else 0

/-- A histogram in which bucket 0 holds 2, bucket 1 holds 5 and every other
bucket is empty. -/
def oneHeavy : ByteCount := fun i => if i = 0 then 2 else if i = 1 then 5 else 0

/-- A histogram whose only non-empty bucket is bucket 0. -/
def onlyZeroByte : ByteCount := fun i => if i = 0 then 7 else 0

/-- A 2x1 image with origin (0,0) holding intensity 10 at (0,0) and 20 at
(1,0). -/
def twoPixels : Gray :=
  { rect := { minX := 0, minY := 0, maxX := 2, maxY := 1 }
    pix := fun x _ => if x = 0 then 10 else 20 }

/-- A stand-in for `filepath.Match`: the pattern `[` is malformed and any other
pattern matches exactly the path equal to it. -/
def literalMatch (pattern path : String) : Bool × Option GoError :=
  if pattern = "[" then (false, some (ReadError.other 1))
  else if pattern = path then (true, none) else (false, none)

/-- A stand-in for `filepath.Glob`: the argument `*` resolves to `a.bin` and
`skip.bin`, any other argument to itself. -/
def demoGlob (pattern : String) : List String × Option GoError :=
  if pattern = "*" then (["a.bin", "skip.bin"], none) else ([pattern], none)

/-- A stand-in for `os.Open`: `a.bin` holds the single byte `0x41`, every other
path fails to open. -/
def demoOpen (path : String) : Except GoError (List ReadResult) :=
  if path = "a.bin" then
    Except.ok [{ data := [65], err := none }, { data := [], err := some ReadError.eof }]
  else Except.error (ReadError.other 2)

/-- An empty image four pixels wide and zero pixels high. -/
def fourByZero : Gray :=
  { rect := { minX := 0, minY := 0, maxX := 4, maxY := 0 }
    pix := fun _ _ => 0 }

/-- A reader whose single `Read` call returns the byte `0x41` together with
`io.EOF`. -/
def dataWithEof : List ReadResult := [{ data := [65], err := some ReadError.eof }]

/-- A reader that returns the byte `0x41` with a `nil` error and then no bytes
with `io.EOF`. -/
def dataThenEof : List ReadResult :=
  [{ data := [65], err := none }, { data := [], err := some ReadError.eof }]

/-! ## Machine integer lemmas -/

theorem intHalf_pos (w : Nat) : 0 < intHalf w := by
  unfold intHalf
  exact_mod_cast Nat.pos_pow_of_pos (max w 32 - 1) (by decide)

/-- The platform `int` holds every value below `2^31`. -/
theorem intHalf_ge (w : Nat) : 2147483648 ≤ intHalf w := by
  unfold intHalf
  have h : 2 ^ 31 ≤ 2 ^ (max w 32 - 1) :=
    Nat.pow_le_pow_right (by decide) (by omega)
  have h31 : (2 : Nat) ^ 31 = 2147483648 := by decide
  rw [h31] at h
  exact_mod_cast h

theorem wrapInt_of_inRange {w : Nat} {x : Int} (h : InIntRange w x) : wrapInt w x = x := by
  obtain ⟨h1, h2⟩ := h
  unfold wrapInt
  rw [Int.emod_eq_of_lt (by omega) (by omega)]
  omega

theorem wrapInt_inRange (w : Nat) (x : Int) : InIntRange w (wrapInt w x) := by
  have hp := intHalf_pos w
  have h1 := Int.emod_nonneg (x + intHalf w) (show 2 * intHalf w ≠ 0 by omega)
  have h2 := Int.emod_lt_of_pos (x + intHalf w) (show 0 < 2 * intHalf w by omega)
  unfold InIntRange wrapInt
  constructor <;> omega

theorem wrapInt_add_left (w : Nat) (a b : Int) :
    wrapInt w (wrapInt w a + b) = wrapInt w (a + b) := by
  unfold wrapInt
  have : (a + intHalf w) % (2 * intHalf w) - intHalf w + b + intHalf w
      = (a + intHalf w) % (2 * intHalf w) + b := by ring
  rw [this, Int.emod_add_emod]
  congr 2
  ring

theorem wrapInt_add_right (w : Nat) (a b : Int) :
    wrapInt w (a + wrapInt w b) = wrapInt w (a + b) := by
  rw [add_comm, wrapInt_add_left, add_comm]

theorem wrapInt_idem (w : Nat) (x : Int) : wrapInt w (wrapInt w x) = wrapInt w x :=
  wrapInt_of_inRange (wrapInt_inRange w x)

theorem zero_inRange (w : Nat) : InIntRange w 0 := by
  have := intHalf_pos w
  constructor <;> omega

/-! ## Loop lemmas -/

/-- A property kept by every iteration of a loop holds after the loop when it
holds before it. -/
theorem foldl_preserves {σ ι : Type} (P : σ → Prop) (body : σ → ι → σ) :
    ∀ (l : List ι) (s : σ), (∀ k ∈ l, ∀ t, P t → P (body t k)) → P s → P (l.foldl body s) := by
  intro l
  induction l with
  | nil => intro s _ hs; exact hs
  | cons k l ih =>
    intro s hstep hs
    simp only [List.foldl_cons]
    exact ih _ (fun k' hk' => hstep k' (List.mem_cons_of_mem _ hk'))
      (hstep k (List.mem_cons_self _ _) s hs)

/-- Under a loop invariant `I`, a property `P` that one iteration establishes
and every iteration keeps holds after the loop. -/
theorem foldl_establishes {σ ι : Type} (I P : σ → Prop) (body : σ → ι → σ) :
    ∀ (l : List ι) (s : σ) (k0 : ι), k0 ∈ l → I s →
      (∀ k ∈ l, ∀ t, I t → I (body t k)) →
      (∀ k ∈ l, ∀ t, I t → P t → P (body t k)) →
      (∀ t, I t → P (body t k0)) → P (l.foldl body s) := by
  intro l
  induction l with
  | nil => intro s k0 hk0; simp at hk0
  | cons k l ih =>
    intro s k0 hk0 hI hinv hstep hest
    simp only [List.foldl_cons]
    have hinv' : ∀ k' ∈ l, ∀ t, I t → I (body t k') :=
      fun k' hk' => hinv k' (List.mem_cons_of_mem _ hk')
    have hstep' : ∀ k' ∈ l, ∀ t, I t → P t → P (body t k') :=
      fun k' hk' => hstep k' (List.mem_cons_of_mem _ hk')
    have hI' : I (body s k) := hinv k (List.mem_cons_self _ _) s hI
    rcases List.mem_cons.1 hk0 with rfl | hmem
    · have hboth : I (l.foldl body (body s k0)) ∧ P (l.foldl body (body s k0)) :=
        foldl_preserves (fun t => I t ∧ P t) body l _
          (fun k' hk' t ht => ⟨hinv' k' hk' t ht.1, hstep' k' hk' t ht.1 ht.2⟩)
          ⟨hI', hest s hI⟩
      exact hboth.2
    · exact ih _ k0 hmem hI' hinv' hstep' hest

theorem forInt_preserves {σ : Type} (P : σ → Prop) (n : Int) (body : σ → Int → σ) (s : σ)
    (hstep : ∀ k, 0 ≤ k → k < n → ∀ t, P t → P (body t k)) (hs : P s) :
    P (forInt n s body) := by
  unfold forInt
  apply foldl_preserves P _ _ _ _ hs
  intro k hk t ht
  have := List.mem_range.1 hk
  exact hstep k (by omega) (by omega) t ht

theorem forInt_establishes {σ : Type} (I P : σ → Prop) (n : Int) (body : σ → Int → σ) (s : σ)
    (k0 : Int) (h0 : 0 ≤ k0) (hn : k0 < n) (hI : I s)
    (hinv : ∀ k, 0 ≤ k → k < n → ∀ t, I t → I (body t k))
    (hstep : ∀ k, 0 ≤ k → k < n → ∀ t, I t → P t → P (body t k))
    (hest : ∀ t, I t → P (body t k0)) :
    P (forInt n s body) := by
  unfold forInt
  apply foldl_establishes I P _ _ _ k0.toNat (List.mem_range.2 (by omega)) hI
  · intro k hk t ht
    have := List.mem_range.1 hk
    exact hinv k (by omega) (by omega) t ht
  · intro k hk t ht hp
    have := List.mem_range.1 hk
    exact hstep k (by omega) (by omega) t ht hp
  · intro t ht
    have hcast : ((k0.toNat : Nat) : Int) = k0 := Int.toNat_of_nonneg h0
    rw [hcast]
    exact hest t ht

/-- A loop that assigns `arr[i] = g i` for each listed index. -/
theorem foldl_setAt {α : Type} (g : Byte → α) :
    ∀ (l : List Byte) (init : Byte → α) (j : Byte),
      (l.foldl (fun arr i => setAt arr i (g i)) init) j = if j ∈ l then g j else init j := by
  intro l
  induction l with
  | nil => intro init j; simp
  | cons k l ih =>
    intro init j
    simp only [List.foldl_cons, ih, List.mem_cons]
    by_cases hjl : j ∈ l
    · simp [hjl]
    · by_cases hjk : j = k
      · subst hjk; simp [hjl, setAt]
      · simp [hjl, hjk, setAt]

theorem mem_byteRange (i : Byte) : i ∈ byteRange := List.mem_finRange i

theorem byteRange_setAt {α : Type} (g : Byte → α) (init : Byte → α) (j : Byte) :
    (byteRange.foldl (fun arr i => setAt arr i (g i)) init) j = g j := by
  rw [foldl_setAt, if_pos (mem_byteRange j)]

/-! ## addByteCounts -/

theorem addFrame_foldl (w : Nat) (a b : ByteCount) :
    ∀ (l : List Byte) (sum : ByteCount),
      l.foldl (fun (fr : AddFrame) i =>
          { fr with sum := setAt fr.sum i (goAdd w (fr.a i) (fr.b i)) })
        { a := a, b := b, sum := sum }
      = { a := a, b := b,
          sum := l.foldl (fun arr i => setAt arr i (goAdd w (a i) (b i))) sum } := by
  intro l
  induction l with
  | nil => intro sum; rfl
  | cons k l ih => intro sum; simp only [List.foldl_cons]; exact ih _

theorem addByteCountsFrame_eq (w : Nat) (a b : ByteCount) :
    addByteCountsFrame w a b
      = { a := a, b := b,
          sum := byteRange.foldl (fun arr i => setAt arr i (goAdd w (a i) (b i))) zeroCount } := by
  unfold addByteCountsFrame
  rw [addFrame_foldl]

theorem addByteCounts_apply (w : Nat) (a b : ByteCount) (i : Byte) :
    addByteCounts w a b i = wrapInt w (a i + b i) := by
  unfold addByteCounts
  rw [addByteCountsFrame_eq]
  dsimp only
  rw [byteRange_setAt (fun i => goAdd w (a i) (b i))]
  rfl

theorem addByteCountsFrame_params (w : Nat) (a b : ByteCount) :
    (addByteCountsFrame w a b).a = a ∧ (addByteCountsFrame w a b).b = b := by
  rw [addByteCountsFrame_eq]
  exact ⟨rfl, rfl⟩

/-! ## scanReader -/

theorem countChunk_cons (w : Nat) (bc : ByteCount) (d : Byte) (ds : List Byte) :
    countChunk w bc (d :: ds) = countChunk w (setAt bc d (goAdd w (bc d) 1)) ds := rfl

theorem countChunk_append (w : Nat) (bc : ByteCount) (xs ys : List Byte) :
    countChunk w bc (xs ++ ys) = countChunk w (countChunk w bc xs) ys := by
  unfold countChunk
  rw [List.foldl_append]

theorem countChunk_wrap (w : Nat) :
    ∀ (data : List Byte) (bc : ByteCount) (b : Byte),
      wrapInt w (countChunk w bc data b) = wrapInt w (bc b + (data.count b : Int)) := by
  intro data
  induction data with
  | nil => intro bc b; simp [countChunk]
  | cons d ds ih =>
    intro bc b
    rw [countChunk_cons, ih]
    by_cases hbd : b = d
    · subst hbd
      simp only [setAt, if_true, goAdd, List.count_cons_self]
      rw [wrapInt_add_left]
      congr 1
      push_cast
      ring
    · simp only [setAt, if_neg hbd]
      rw [List.count_cons_of_ne hbd]

theorem countChunk_inRange (w : Nat) :
    ∀ (data : List Byte) (bc : ByteCount), (∀ b, InIntRange w (bc b)) →
      ∀ b, InIntRange w (countChunk w bc data b) := by
  intro data
  induction data with
  | nil => intro bc h b; exact h b
  | cons d ds ih =>
    intro bc h b
    rw [countChunk_cons]
    apply ih
    intro j
    unfold setAt
    split
    · exact wrapInt_inRange w _
    · exact h j

theorem countChunk_zero (w : Nat) (data : List Byte) (b : Byte) :
    countChunk w zeroCount data b = wrapInt w (data.count b : Int) := by
  have h1 := countChunk_wrap w data zeroCount b
  have h2 := countChunk_inRange w data zeroCount (fun _ => zero_inRange w) b
  rw [wrapInt_of_inRange h2] at h1
  rw [h1]
  simp [zeroCount]

theorem cleanReads_cons (c : List Byte) (cs : List (List Byte)) :
    cleanReads (c :: cs) = { data := c, err := none } :: cleanReads cs := rfl

theorem scanLoop_clean (w : Nat) :
    ∀ (chunks : List (List Byte)) (bc : ByteCount),
      scanLoop w (cleanReads chunks) bc = some (countChunk w bc chunks.flatten, none) := by
  intro chunks
  induction chunks with
  | nil => intro bc; rfl
  | cons c cs ih =>
    intro bc
    rw [cleanReads_cons, List.flatten_cons, countChunk_append]
    simp only [scanLoop]
    exact ih _

theorem count_lt_wrap {w : Nat} {n : Nat} (h : (n : Int) < intHalf w) :
    wrapInt w (n : Int) = n := by
  apply wrapInt_of_inRange
  have := intHalf_pos w
  constructor <;> omega

/-! ## normalizeByteCount -/

/-- The first loop of `normalizeByteCount` from any start value and over any
index list: the result bounds the start value and every eligible listed
count, and is the start value or an eligible listed count. -/
theorem maxFold_spec (includeZero : Bool) (c : ByteCount) :
    ∀ (l : List Byte) (m0 : Int),
      m0 ≤ l.foldl (fun maxVal i =>
          if c i > maxVal ∧ (includeZero = true ∨ i ≠ 0) then c i else maxVal) m0 ∧
      (∀ i ∈ l, (includeZero = true ∨ i ≠ 0) →
        c i ≤ l.foldl (fun maxVal i =>
          if c i > maxVal ∧ (includeZero = true ∨ i ≠ 0) then c i else maxVal) m0) ∧
      (l.foldl (fun maxVal i =>
          if c i > maxVal ∧ (includeZero = true ∨ i ≠ 0) then c i else maxVal) m0 = m0 ∨
        ∃ i ∈ l, (includeZero = true ∨ i ≠ 0) ∧
          c i = l.foldl (fun maxVal i =>
            if c i > maxVal ∧ (includeZero = true ∨ i ≠ 0) then c i else maxVal) m0) := by
  intro l
  induction l with
  | nil => intro m0; simp
  | cons k l ih =>
    intro m0
    simp only [List.foldl_cons]
    obtain ⟨h1, h2, h3⟩ := ih (if c k > m0 ∧ (includeZero = true ∨ k ≠ 0) then c k else m0)
    by_cases hk : c k > m0 ∧ (includeZero = true ∨ k ≠ 0)
    · simp only [if_pos hk] at h1 h2 h3 ⊢
      refine ⟨by omega, ?_, ?_⟩
      · intro i hi he
        rcases List.mem_cons.1 hi with rfl | hmem
        · exact h1
        · exact h2 i hmem he
      · right
        rcases h3 with h3 | ⟨i, hi, he, hc⟩
        · exact ⟨k, List.mem_cons_self _ _, hk.2, h3.symm⟩
        · exact ⟨i, List.mem_cons_of_mem _ hi, he, hc⟩
    · simp only [if_neg hk] at h1 h2 h3 ⊢
      refine ⟨h1, ?_, ?_⟩
      · intro i hi he
        rcases List.mem_cons.1 hi with rfl | hmem
        · have : ¬ c i > m0 := fun hgt => hk ⟨hgt, he⟩
          omega
        · exact h2 i hmem he
      · rcases h3 with h3 | ⟨i, hi, he, hc⟩
        · exact Or.inl h3
        · exact Or.inr ⟨i, List.mem_cons_of_mem _ hi, he, hc⟩

theorem maxValOf_nonneg (includeZero : Bool) (c : ByteCount) : 0 ≤ maxValOf includeZero c :=
  (maxFold_spec includeZero c byteRange 0).1

theorem maxValOf_upper (includeZero : Bool) (c : ByteCount) (i : Byte)
    (he : includeZero = true ∨ i ≠ 0) : c i ≤ maxValOf includeZero c :=
  (maxFold_spec includeZero c byteRange 0).2.1 i (mem_byteRange i) he

theorem maxValOf_attained (includeZero : Bool) (c : ByteCount)
    (h : maxValOf includeZero c ≠ 0) :
    ∃ i, (includeZero = true ∨ i ≠ 0) ∧ c i = maxValOf includeZero c := by
  rcases (maxFold_spec includeZero c byteRange 0).2.2 with h0 | ⟨i, _, he, hc⟩
  · exact absurd h0 h
  · exact ⟨i, he, hc⟩

theorem maxValOf_eq_zero (includeZero : Bool) (c : ByteCount)
    (h : ∀ i, (includeZero = true ∨ i ≠ 0) → c i = 0) : maxValOf includeZero c = 0 := by
  by_contra hne
  obtain ⟨i, he, hc⟩ := maxValOf_attained includeZero c hne
  exact hne (by rw [← hc, h i he])

/-- A fallible assignment loop none of whose iterations fails. -/
theorem foldlM_setAt_some {α β : Type} (gd : Byte → Option β) (q : Byte → β) (f : β → α)
    (hq : ∀ i, gd i = some (q i)) :
    ∀ (l : List Byte) (init : Byte → α),
      l.foldlM (fun arr i => (gd i).bind fun v => some (setAt arr i (f v))) init
        = some (l.foldl (fun arr i => setAt arr i (f (q i))) init) := by
  intro l
  induction l with
  | nil => intro init; rfl
  | cons k l ih =>
    intro init
    simp only [List.foldlM_cons, List.foldl_cons, hq k, Option.some_bind, Option.bind_eq_bind]
    exact ih _

theorem goDiv_of_ne (w : Nat) (a b : Int) (hb : b ≠ 0) :
    goDiv w a b = some (wrapInt w (Int.tdiv a b)) := by
  unfold goDiv
  rw [if_neg hb]

/-- The second loop never panics on a non-zero `maxVal`, and stores the
truncated quotient of every bucket. -/
theorem normalizeLoop_eq (w : Nat) (c : ByteCount) (m : Int) (hm : m ≠ 0) :
    normalizeLoop w c m
      = some (fun i => toUint8 (wrapInt w (Int.tdiv (goMul w (c i) 255) m))) := by
  unfold normalizeLoop
  rw [foldlM_setAt_some (fun i => goDiv w (goMul w (c i) 255) m)
    (fun i => wrapInt w (Int.tdiv (goMul w (c i) 255) m)) toUint8
    (fun i => goDiv_of_ne w _ m hm)]
  refine congrArg some (funext fun i => ?_)
  rw [byteRange_setAt (fun i => toUint8 (wrapInt w (Int.tdiv (goMul w (c i) 255) m)))]

theorem normalizeByteCount_of_ne (w : Nat) (includeZero : Bool) (c : ByteCount)
    (h : maxValOf includeZero c ≠ 0) :
    normalizeByteCount w includeZero c
      = some (fun i =>
          toUint8 (wrapInt w (Int.tdiv (goMul w (c i) 255) (maxValOf includeZero c)))) := by
  unfold normalizeByteCount
  simp only [if_neg h]
  exact normalizeLoop_eq w c _ h

theorem normalizeByteCount_of_zero (w : Nat) (includeZero : Bool) (c : ByteCount)
    (h : maxValOf includeZero c = 0) :
    normalizeByteCount w includeZero c = some zeroNormalized := by
  unfold normalizeByteCount
  simp only [if_pos h]

theorem toUint8_lt (v : Int) : toUint8 v < 256 := by
  unfold toUint8
  omega

theorem toUint8_of_le {q : Int} (h0 : 0 ≤ q) (h1 : q ≤ 255) : (toUint8 q : Int) = q := by
  unfold toUint8
  omega

/-- Without overflow the machine quotient is the mathematical floor. -/
theorem quotient_exact (w : Nat) (x m : Int) (hx : 0 ≤ x) (hov : x * 255 < intHalf w)
    (hm : 0 < m) :
    wrapInt w (Int.tdiv (goMul w x 255) m) = x * 255 / m := by
  have hp := intHalf_pos w
  have hmul : goMul w x 255 = x * 255 :=
    wrapInt_of_inRange ⟨by omega, hov⟩
  rw [hmul, Int.tdiv_eq_ediv (by omega) (by omega)]
  have hq0 : 0 ≤ x * 255 / m := Int.ediv_nonneg (by omega) (by omega)
  have hq1 : x * 255 / m ≤ x * 255 := Int.ediv_le_self m (by omega)
  exact wrapInt_of_inRange ⟨by omega, by omega⟩

theorem quotient_le_255 (x m : Int) (hm : 0 < m) (hle : x ≤ m) : x * 255 / m ≤ 255 := by
  apply Int.ediv_le_of_le_mul hm
  nlinarith

theorem normalizeByteCount_total (w : Nat) (includeZero : Bool) (c : ByteCount) :
    ∃ normalized, normalizeByteCount w includeZero c = some normalized ∧
      ∀ i, normalized i ≤ 255 := by
  by_cases h : maxValOf includeZero c = 0
  · exact ⟨zeroNormalized, normalizeByteCount_of_zero w includeZero c h, fun _ => Nat.zero_le _⟩
  · refine ⟨_, normalizeByteCount_of_ne w includeZero c h, fun i => ?_⟩
    have := toUint8_lt (wrapInt w (Int.tdiv (goMul w (c i) 255) (maxValOf includeZero c)))
    omega

theorem zeroHeavy_nonneg (i : Byte) : 0 ≤ zeroHeavy i := by
  unfold zeroHeavy
  split_ifs <;> decide

theorem zeroHeavy_small (i : Byte) : zeroHeavy i * 255 < intHalf 64 := by
  unfold zeroHeavy
  split_ifs <;> decide

theorem zeroHeavy_maxVal : maxValOf false zeroHeavy = 1 := by decide!

theorem scanReader_cleanReads (w : Nat) (chunks : List (List Byte)) :
    scanReader w (cleanReads chunks) = some (countChunk w zeroCount chunks.flatten, none) :=
  scanLoop_clean w chunks zeroCount

/-! ## Images -/

theorem Set_rect (img : Gray) (x y : Int) (c : Nat) : (img.Set x y c).rect = img.rect := by
  unfold Gray.Set
  split <;> rfl

theorem Set_pix (img : Gray) (x y : Int) (c : Nat) (a b : Int) :
    (img.Set x y c).pix a b
      = if img.rect.Contains x y ∧ a = x ∧ b = y then c else img.pix a b := by
  unfold Gray.Set
  by_cases hc : img.rect.Contains x y
  · by_cases hab : a = x ∧ b = y
    · simp [hc, hab]
    · simp [hc, hab]
  · simp [hc]

theorem At_of_contains (img : Gray) (x y : Int) (h : img.rect.Contains x y) :
    img.At x y = img.pix x y := by
  unfold Gray.At
  rw [if_pos h]

theorem subUint8_255 (n : Nat) (h : n ≤ 255) : subUint8 255 n = 255 - n := by
  unfold subUint8
  omega

theorem goDx_of_fits (w : Nat) (r : Rectangle) (h0 : 0 ≤ r.Dx) (h1 : r.Dx < intHalf w) :
    goDx w r = r.Dx := by
  unfold goDx
  unfold Rectangle.Dx at h0 h1 ⊢
  exact wrapInt_of_inRange ⟨by omega, h1⟩

theorem goDy_of_fits (w : Nat) (r : Rectangle) (h0 : 0 ≤ r.Dy) (h1 : r.Dy < intHalf w) :
    goDy w r = r.Dy := by
  unfold goDy
  unfold Rectangle.Dy at h0 h1 ⊢
  exact wrapInt_of_inRange ⟨by omega, h1⟩

/-- `image.NewGray` returns the zero image when the width, the height and the
pixel count are non-negative and fit the platform `int`. -/
theorem NewGray_of_fits (w : Nat) (r : Rectangle) (h0x : 0 ≤ r.Dx) (h0y : 0 ≤ r.Dy)
    (hx : r.Dx < intHalf w) (hy : r.Dy < intHalf w) (hsz : r.Dx * r.Dy < intHalf w) :
    NewGray w r = some (zeroImage r) := by
  unfold NewGray
  rw [goDx_of_fits w r h0x hx, goDy_of_fits w r h0y hy]
  rw [if_neg (by omega)]

theorem NewGray_raster (w : Nat) :
    NewGray w (Rect 0 0 16 16) = some (zeroImage (Rect 0 0 16 16)) := by
  have h := intHalf_ge w
  have hdx : (Rect 0 0 16 16).Dx = 16 := by decide
  have hdy : (Rect 0 0 16 16).Dy = 16 := by decide
  exact NewGray_of_fits w _ (by rw [hdx]; decide) (by rw [hdy]; decide)
    (by rw [hdx]; omega) (by rw [hdy]; omega) (by rw [hdx, hdy]; omega)

/-- The pixel loop of `byteCountToImage` keeps the 16x16 bounds and leaves at
the cell of index `i` the inverted normalised count of `i`. -/
theorem rasterLoop_spec (n : Normalized) :
    (rasterImage n).rect = { minX := 0, minY := 0, maxX := 16, maxY := 16 } ∧
    ∀ i : Byte, (rasterImage n).At ((i.val : Int) % 16) ((i.val : Int) / 16)
      = subUint8 255 (n i) := by
  have hrect : ∀ img : Gray, img.rect = { minX := 0, minY := 0, maxX := 16, maxY := 16 } →
      ∀ k : Byte, (img.Set ((k.val : Int) % 16) ((k.val : Int) / 16)
        (subUint8 255 (n k))).rect = { minX := 0, minY := 0, maxX := 16, maxY := 16 } := by
    intro img h k
    rw [Set_rect, h]
  have hfinal : (rasterImage n).rect = { minX := 0, minY := 0, maxX := 16, maxY := 16 } := by
    unfold rasterImage rasterLoop
    exact foldl_preserves
      (fun img : Gray => img.rect = { minX := 0, minY := 0, maxX := 16, maxY := 16 })
      _ byteRange _ (fun k _ t ht => hrect t ht k) rfl
  refine ⟨hfinal, fun i => ?_⟩
  have hin : ∀ k : Byte, Rectangle.Contains { minX := 0, minY := 0, maxX := 16, maxY := 16 }
      ((k.val : Int) % 16) ((k.val : Int) / 16) := by
    intro k
    have := k.isLt
    unfold Rectangle.Contains
    dsimp only
    omega
  rw [At_of_contains _ _ _ (by rw [hfinal]; exact hin i)]
  unfold rasterImage rasterLoop
  apply foldl_establishes
    (fun img : Gray => img.rect = { minX := 0, minY := 0, maxX := 16, maxY := 16 })
    (fun img : Gray => img.pix ((i.val : Int) % 16) ((i.val : Int) / 16) = subUint8 255 (n i))
    _ byteRange _ i (mem_byteRange i) rfl
  · exact fun k _ t ht => hrect t ht k
  · intro k _ t _ hp
    dsimp only
    rw [Set_pix]
    split
    · rename_i hcond
      have hki : k = i := by
        apply Fin.ext
        have := k.isLt
        have := i.isLt
        omega
      rw [hki]
    · exact hp
  · intro t ht
    dsimp only
    rw [Set_pix, if_pos ⟨by rw [ht]; exact hin i, rfl, rfl⟩]

theorem byteCountToImage_of_normalized (w : Nat) (includeZero : Bool) (c : ByteCount)
    (n : Normalized) (hn : normalizeByteCount w includeZero c = some n) :
    byteCountToImage w includeZero c = some (rasterImage n) := by
  unfold byteCountToImage
  rw [hn]
  simp only [Option.some_bind, Option.bind_eq_bind]
  rw [NewGray_raster]
  rfl

/-- The function `byteCountToImage` never panics: it returns the pixel loop run on
the normalised counts. -/
theorem byteCountToImage_some (w : Nat) (includeZero : Bool) (c : ByteCount) :
    ∃ n, normalizeByteCount w includeZero c = some n ∧ (∀ i, n i ≤ 255) ∧
      byteCountToImage w includeZero c = some (rasterImage n) := by
  obtain ⟨n, hn, hle⟩ := normalizeByteCount_total w includeZero c
  refine ⟨n, hn, hle, ?_⟩
  unfold byteCountToImage
  rw [hn]
  simp only [Option.some_bind, Option.bind_eq_bind]
  rw [NewGray_raster]
  rfl

theorem Rect_of_nonneg (a b : Int) (ha : 0 ≤ a) (hb : 0 ≤ b) :
    Rect 0 0 a b = { minX := 0, minY := 0, maxX := a, maxY := b } := by
  unfold Rect
  rw [if_neg (by omega), if_neg (by omega), if_neg (by omega), if_neg (by omega)]

theorem block_div (S x i : Int) (hi0 : 0 ≤ i) (hi : i < S) : (x * S + i) / S = x := by
  rw [add_comm, Int.add_mul_ediv_right _ _ (by omega), Int.ediv_eq_zero_of_lt hi0 hi]
  omega

/-- One `Set` of the innermost loop of `resizeImage` keeps a pixel that already
holds the source pixel of its block. -/
theorem Set_keeps_block (img t : Gray) (S X Y x y i j : Int)
    (hi0 : 0 ≤ i) (hi : i < S) (hj0 : 0 ≤ j) (hj : j < S)
    (hp : t.pix X Y = img.At (X / S) (Y / S)) :
    (t.Set (x * S + i) (y * S + j) (img.At x y)).pix X Y = img.At (X / S) (Y / S) := by
  rw [Set_pix]
  split
  · rename_i hcond
    obtain ⟨_, hX, hY⟩ := hcond
    rw [hX, hY, block_div S x i hi0 hi, block_div S y j hj0 hj]
  · exact hp

/-- The loops of `resizeImage` started from any image with bounds `R`: the
bounds stay `R`, and a pixel inside the scaled source area ends up holding the
source pixel of its block. -/
theorem resizeLoops_spec (img : Gray) (S W H : Int) (hS : 1 ≤ S) (start : Gray)
    (hstart : start.rect = { minX := 0, minY := 0, maxX := W * S, maxY := H * S }) :
    (forInt W start fun r1 x =>
      forInt H r1 fun r2 y =>
        forInt S r2 fun r3 i =>
          forInt S r3 fun resized j =>
            resized.Set (x * S + i) (y * S + j) (img.At x y)).rect
      = { minX := 0, minY := 0, maxX := W * S, maxY := H * S } ∧
    ∀ X Y : Int, 0 ≤ X → X < W * S → 0 ≤ Y → Y < H * S →
      (forInt W start fun r1 x =>
        forInt H r1 fun r2 y =>
          forInt S r2 fun r3 i =>
            forInt S r3 fun resized j =>
              resized.Set (x * S + i) (y * S + j) (img.At x y)).pix X Y
        = img.At (X / S) (Y / S) := by
  have hSpos : 0 < S := by omega
  -- the bounds are a loop invariant at every nesting level
  have I4 : ∀ (x y i : Int) (t : Gray),
      t.rect = { minX := 0, minY := 0, maxX := W * S, maxY := H * S } →
      (forInt S t fun resized j =>
        resized.Set (x * S + i) (y * S + j) (img.At x y)).rect
        = { minX := 0, minY := 0, maxX := W * S, maxY := H * S } := by
    intro x y i t ht
    exact forInt_preserves
      (fun g : Gray => g.rect = { minX := 0, minY := 0, maxX := W * S, maxY := H * S })
      S _ t (fun j _ _ g hg => (Set_rect g _ _ _).trans hg) ht
  have I3 : ∀ (x y : Int) (t : Gray),
      t.rect = { minX := 0, minY := 0, maxX := W * S, maxY := H * S } →
      (forInt S t fun r3 i => forInt S r3 fun resized j =>
        resized.Set (x * S + i) (y * S + j) (img.At x y)).rect
        = { minX := 0, minY := 0, maxX := W * S, maxY := H * S } := by
    intro x y t ht
    exact forInt_preserves
      (fun g : Gray => g.rect = { minX := 0, minY := 0, maxX := W * S, maxY := H * S })
      S _ t (fun i _ _ g hg => I4 x y i g hg) ht
  have I2 : ∀ (x : Int) (t : Gray),
      t.rect = { minX := 0, minY := 0, maxX := W * S, maxY := H * S } →
      (forInt H t fun r2 y => forInt S r2 fun r3 i => forInt S r3 fun resized j =>
        resized.Set (x * S + i) (y * S + j) (img.At x y)).rect
        = { minX := 0, minY := 0, maxX := W * S, maxY := H * S } := by
    intro x t ht
    exact forInt_preserves
      (fun g : Gray => g.rect = { minX := 0, minY := 0, maxX := W * S, maxY := H * S })
      H _ t (fun y _ _ g hg => I3 x y g hg) ht
  refine ⟨forInt_preserves
      (fun g : Gray => g.rect = { minX := 0, minY := 0, maxX := W * S, maxY := H * S })
      W _ start (fun x _ _ g hg => I2 x g hg) hstart, ?_⟩
  intro X Y hX0 hX1 hY0 hY1
  -- a pixel that holds its block's source pixel keeps it at every nesting level
  have P4 : ∀ (x y i : Int), 0 ≤ i → i < S → ∀ t : Gray,
      t.pix X Y = img.At (X / S) (Y / S) →
      (forInt S t fun resized j =>
        resized.Set (x * S + i) (y * S + j) (img.At x y)).pix X Y
        = img.At (X / S) (Y / S) := by
    intro x y i hi0 hi t ht
    exact forInt_preserves (fun g : Gray => g.pix X Y = img.At (X / S) (Y / S))
      S _ t (fun j hj0 hj g hg => Set_keeps_block img g S X Y x y i j hi0 hi hj0 hj hg) ht
  have P3 : ∀ (x y : Int) (t : Gray),
      t.pix X Y = img.At (X / S) (Y / S) →
      (forInt S t fun r3 i => forInt S r3 fun resized j =>
        resized.Set (x * S + i) (y * S + j) (img.At x y)).pix X Y
        = img.At (X / S) (Y / S) := by
    intro x y t ht
    exact forInt_preserves (fun g : Gray => g.pix X Y = img.At (X / S) (Y / S))
      S _ t (fun i hi0 hi g hg => P4 x y i hi0 hi g hg) ht
  have P2 : ∀ (x : Int) (t : Gray),
      t.pix X Y = img.At (X / S) (Y / S) →
      (forInt H t fun r2 y => forInt S r2 fun r3 i => forInt S r3 fun resized j =>
        resized.Set (x * S + i) (y * S + j) (img.At x y)).pix X Y
        = img.At (X / S) (Y / S) := by
    intro x t ht
    exact forInt_preserves (fun g : Gray => g.pix X Y = img.At (X / S) (Y / S))
      H _ t (fun y _ _ g hg => P3 x y g hg) ht
  -- the iteration that writes the pixel
  have hx0 : 0 ≤ X / S := Int.ediv_nonneg hX0 (by omega)
  have hx1 : X / S < W := Int.ediv_lt_of_lt_mul hSpos hX1
  have hy0 : 0 ≤ Y / S := Int.ediv_nonneg hY0 (by omega)
  have hy1 : Y / S < H := Int.ediv_lt_of_lt_mul hSpos hY1
  have hi0 : 0 ≤ X % S := Int.emod_nonneg X (by omega)
  have hi1 : X % S < S := Int.emod_lt_of_pos X hSpos
  have hj0 : 0 ≤ Y % S := Int.emod_nonneg Y (by omega)
  have hj1 : Y % S < S := Int.emod_lt_of_pos Y hSpos
  have hXeq : X / S * S + X % S = X := Int.ediv_add_emod' X S
  have hYeq : Y / S * S + Y % S = Y := Int.ediv_add_emod' Y S
  have E4 : ∀ t : Gray,
      t.rect = { minX := 0, minY := 0, maxX := W * S, maxY := H * S } →
      (forInt S t fun resized j =>
        resized.Set (X / S * S + X % S) (Y / S * S + j) (img.At (X / S) (Y / S))).pix X Y
        = img.At (X / S) (Y / S) := by
    intro t ht
    apply forInt_establishes
      (fun g : Gray => g.rect = { minX := 0, minY := 0, maxX := W * S, maxY := H * S })
      (fun g : Gray => g.pix X Y = img.At (X / S) (Y / S))
      S _ t (Y % S) hj0 hj1 ht
    · exact fun j _ _ g hg => (Set_rect g _ _ _).trans hg
    · exact fun j hj0' hj' g _ hp =>
        Set_keeps_block img g S X Y (X / S) (Y / S) (X % S) j hi0 hi1 hj0' hj' hp
    · intro g hg
      have hc : g.rect.Contains X Y := by
        rw [hg]
        exact ⟨hX0, hX1, hY0, hY1⟩
      rw [Set_pix, hXeq, hYeq, if_pos ⟨hc, rfl, rfl⟩]
  have E3 : ∀ t : Gray,
      t.rect = { minX := 0, minY := 0, maxX := W * S, maxY := H * S } →
      (forInt S t fun r3 i => forInt S r3 fun resized j =>
        resized.Set (X / S * S + i) (Y / S * S + j) (img.At (X / S) (Y / S))).pix X Y
        = img.At (X / S) (Y / S) := by
    intro t ht
    apply forInt_establishes
      (fun g : Gray => g.rect = { minX := 0, minY := 0, maxX := W * S, maxY := H * S })
      (fun g : Gray => g.pix X Y = img.At (X / S) (Y / S))
      S _ t (X % S) hi0 hi1 ht
    · exact fun i _ _ g hg => I4 (X / S) (Y / S) i g hg
    · exact fun i hi0' hi' g _ hp => P4 (X / S) (Y / S) i hi0' hi' g hp
    · exact fun g hg => E4 g hg
  have E2 : ∀ t : Gray,
      t.rect = { minX := 0, minY := 0, maxX := W * S, maxY := H * S } →
      (forInt H t fun r2 y => forInt S r2 fun r3 i => forInt S r3 fun resized j =>
        resized.Set (X / S * S + i) (y * S + j) (img.At (X / S) y)).pix X Y
        = img.At (X / S) (Y / S) := by
    intro t ht
    apply forInt_establishes
      (fun g : Gray => g.rect = { minX := 0, minY := 0, maxX := W * S, maxY := H * S })
      (fun g : Gray => g.pix X Y = img.At (X / S) (Y / S))
      H _ t (Y / S) hy0 hy1 ht
    · exact fun y _ _ g hg => I3 (X / S) y g hg
    · exact fun y _ _ g _ hp => P3 (X / S) y g hp
    · exact fun g hg => E3 g hg
  apply forInt_establishes
    (fun g : Gray => g.rect = { minX := 0, minY := 0, maxX := W * S, maxY := H * S })
    (fun g : Gray => g.pix X Y = img.At (X / S) (Y / S))
    W _ start (X / S) hx0 hx1 hstart
  · exact fun x _ _ g hg => I2 x g hg
  · exact fun x _ _ g _ hp => P2 x g hp
  · exact fun g hg => E2 g hg

/-! ## resizeImage on machine integers -/

theorem foldl_ext_mem {σ ι : Type} (f g : σ → ι → σ) :
    ∀ (l : List ι) (s : σ), (∀ k ∈ l, ∀ t, f t k = g t k) → l.foldl f s = l.foldl g s := by
  intro l
  induction l with
  | nil => intro s _; rfl
  | cons k l ih =>
    intro s h
    simp only [List.foldl_cons]
    rw [h k (List.mem_cons_self _ _) s]
    exact ih _ (fun k' hk' => h k' (List.mem_cons_of_mem _ hk'))

/-- Two loop bodies that agree on the indices the loop visits give the same
loop. -/
theorem forInt_congr {σ : Type} (n : Int) (s : σ) (body body' : σ → Int → σ)
    (h : ∀ k, 0 ≤ k → k < n → ∀ t, body t k = body' t k) :
    forInt n s body = forInt n s body' := by
  unfold forInt
  apply foldl_ext_mem
  intro k hk t
  have := List.mem_range.1 hk
  exact h k (by omega) (by omega) t

theorem forInt_nonpos {σ : Type} (n : Int) (s : σ) (body : σ → Int → σ) (hn : n ≤ 0) :
    forInt n s body = s := by
  unfold forInt
  have h0 : n.toNat = 0 := by omega
  rw [h0]
  rfl

/-- The coordinate `x*multiplier+i` of a `Set` in `resizeImage` does not wrap
when the scaled width fits the platform `int`. -/
theorem set_coord_exact (w : Nat) (x S i W : Int) (hx0 : 0 ≤ x) (hx : x < W)
    (hi0 : 0 ≤ i) (hi : i < S) (hWS : W * S < intHalf w) :
    goAdd w (goMul w x S) i = x * S + i := by
  have hp := intHalf_pos w
  have h1 : 0 ≤ x * S := mul_nonneg hx0 (by omega)
  have h2 : x * S + i < W * S := by nlinarith
  have hmul : goMul w x S = x * S := wrapInt_of_inRange ⟨by omega, by omega⟩
  unfold goAdd
  rw [hmul]
  exact wrapInt_of_inRange ⟨by omega, by omega⟩

/-- When the scaled width and height fit the platform `int`, the loops of
`resizeImage` are the loops over exact coordinates. -/
theorem resizeLoops_exact (w : Nat) (img : Gray) (S W H : Int) (start : Gray)
    (hWS : W * S < intHalf w) (hHS : H * S < intHalf w) :
    resizeLoops w img S W H start
      = forInt W start fun r1 x =>
          forInt H r1 fun r2 y =>
            forInt S r2 fun r3 i =>
              forInt S r3 fun resized j =>
                resized.Set (x * S + i) (y * S + j) (img.At x y) := by
  unfold resizeLoops
  apply forInt_congr
  intro x hx0 hx t1
  apply forInt_congr
  intro y hy0 hy t2
  apply forInt_congr
  intro i hi0 hi t3
  apply forInt_congr
  intro j hj0 hj t4
  rw [set_coord_exact w x S i W hx0 hx hi0 hi hWS, set_coord_exact w y S j H hy0 hy hj0 hj hHS]

/-- With a non-positive multiplier the loops of `resizeImage` set no pixel. -/
theorem resizeLoops_nonpos (w : Nat) (img : Gray) (m W H : Int) (start : Gray) (hm : m ≤ 0) :
    resizeLoops w img m W H start = start := by
  unfold resizeLoops
  exact forInt_preserves (fun g : Gray => g = start) W _ start
    (fun x _ _ g hg =>
      forInt_preserves (fun g' : Gray => g' = start) H _ g
        (fun y _ _ g' hg' => (forInt_nonpos m g' _ hm).trans hg') hg)
    rfl

/-- The loops of `resizeImage` keep the bounds of the image they run on. -/
theorem resizeLoops_rect (w : Nat) (img : Gray) (m W H : Int) (start : Gray) :
    (resizeLoops w img m W H start).rect = start.rect := by
  unfold resizeLoops
  exact forInt_preserves (fun g : Gray => g.rect = start.rect) W _ start
    (fun x _ _ g1 h1 =>
      forInt_preserves (fun g : Gray => g.rect = start.rect) H _ g1
        (fun y _ _ g2 h2 =>
          forInt_preserves (fun g : Gray => g.rect = start.rect) m _ g2
            (fun i _ _ g3 h3 =>
              forInt_preserves (fun g : Gray => g.rect = start.rect) m _ g3
                (fun j _ _ g4 h4 => (Set_rect g4 _ _ _).trans h4) h3) h2) h1)
    rfl

theorem NewGray_origin (w : Nat) (a b : Int) (ha : 0 ≤ a) (hb : 0 ≤ b)
    (ha1 : a < intHalf w) (hb1 : b < intHalf w) (hab : a * b < intHalf w) :
    NewGray w { minX := 0, minY := 0, maxX := a, maxY := b }
      = some (zeroImage { minX := 0, minY := 0, maxX := a, maxY := b }) := by
  have hdx : Rectangle.Dx { minX := 0, minY := 0, maxX := a, maxY := b } = a := by
    unfold Rectangle.Dx
    exact sub_zero a
  have hdy : Rectangle.Dy { minX := 0, minY := 0, maxX := a, maxY := b } = b := by
    unfold Rectangle.Dy
    exact sub_zero b
  exact NewGray_of_fits w _ (by rw [hdx]; exact ha) (by rw [hdy]; exact hb)
    (by rw [hdx]; exact ha1) (by rw [hdy]; exact hb1) (by rw [hdx, hdy]; exact hab)

theorem resizeImage_eq (w : Nat) (img : Gray) (m : Int) :
    resizeImage w img m
      = (NewGray w (Rect 0 0 (goMul w (goDx w img.rect) m) (goMul w (goDy w img.rect) m))).map
          (resizeLoops w img m (goDx w img.rect) (goDy w img.rect)) := rfl

theorem NewGray_none (w : Nat) (r : Rectangle)
    (h : goDx w r < 0 ∨ goDy w r < 0 ∨ intHalf w ≤ goDx w r * goDy w r) :
    NewGray w r = none := by
  unfold NewGray
  rw [if_pos h]

/-- The image returned by `resizeImage` for a factor of at least 1 when the
scaled width, the scaled height and the scaled pixel count fit the platform
`int`. -/
theorem resizeImage_pixels (w : Nat) (img : Gray) (S : Int) (hw : 0 ≤ img.rect.Dx)
    (hh : 0 ≤ img.rect.Dy) (hS : 1 ≤ S) (hwS : img.rect.Dx * S < intHalf w)
    (hhS : img.rect.Dy * S < intHalf w)
    (hsize : img.rect.Dx * S * (img.rect.Dy * S) < intHalf w) :
    ∃ r, resizeImage w img S = some r ∧
      r.rect = { minX := 0, minY := 0, maxX := img.rect.Dx * S, maxY := img.rect.Dy * S } ∧
      ∀ X Y : Int, 0 ≤ X → X < img.rect.Dx * S → 0 ≤ Y → Y < img.rect.Dy * S →
        r.pix X Y = img.At (X / S) (Y / S) := by
  have hp := intHalf_pos w
  have hdxle : img.rect.Dx ≤ img.rect.Dx * S := by nlinarith
  have hdyle : img.rect.Dy ≤ img.rect.Dy * S := by nlinarith
  have hgx : goDx w img.rect = img.rect.Dx := goDx_of_fits w _ hw (by omega)
  have hgy : goDy w img.rect = img.rect.Dy := goDy_of_fits w _ hh (by omega)
  have hmx : goMul w img.rect.Dx S = img.rect.Dx * S :=
    wrapInt_of_inRange ⟨by omega, hwS⟩
  have hmy : goMul w img.rect.Dy S = img.rect.Dy * S :=
    wrapInt_of_inRange ⟨by omega, hhS⟩
  have hR : Rect 0 0 (img.rect.Dx * S) (img.rect.Dy * S)
      = { minX := 0, minY := 0, maxX := img.rect.Dx * S, maxY := img.rect.Dy * S } :=
    Rect_of_nonneg _ _ (by omega) (by omega)
  have hnew : NewGray w
      { minX := 0, minY := 0, maxX := img.rect.Dx * S, maxY := img.rect.Dy * S }
      = some (zeroImage
          { minX := 0, minY := 0, maxX := img.rect.Dx * S, maxY := img.rect.Dy * S }) :=
    NewGray_origin w _ _ (by omega) (by omega) hwS hhS hsize
  refine ⟨resizeLoops w img S img.rect.Dx img.rect.Dy (zeroImage
    { minX := 0, minY := 0, maxX := img.rect.Dx * S, maxY := img.rect.Dy * S }), ?_, ?_⟩
  · rw [resizeImage_eq, hgx, hgy, hmx, hmy, hR, hnew]
    rfl
  · rw [resizeLoops_exact w img S _ _ _ hwS hhS]
    exact resizeLoops_spec img S img.rect.Dx img.rect.Dy hS _ rfl

/-! ## The claims -/

/-- C1 (amended): for non-negative counts whose products with 255 fit the
platform `int` and a non-zero `maxVal`, `maxVal` is the largest count over the
indices eligible under `include_zero`, `normalizeByteCount` returns, and
`normalized[i] = floor(counts[i] * 255 / maxVal)` at every index whose quotient
is at most 255; every eligible index is such an index. -/
theorem normalizeByteCount_floor (w : Nat) (includeZero : Bool) (c : ByteCount)
    (hnn : ∀ i, 0 ≤ c i) (hov : ∀ i, c i * 255 < intHalf w)
    (hmax : maxValOf includeZero c ≠ 0) :
    (∀ i, (includeZero = true ∨ i ≠ 0) → c i ≤ maxValOf includeZero c) ∧
    (∃ i, (includeZero = true ∨ i ≠ 0) ∧ c i = maxValOf includeZero c) ∧
    ∃ normalized, normalizeByteCount w includeZero c = some normalized ∧
      (∀ i, c i * 255 / maxValOf includeZero c ≤ 255 →
        (normalized i : Int) = c i * 255 / maxValOf includeZero c) ∧
      (∀ i, (includeZero = true ∨ i ≠ 0) → c i * 255 / maxValOf includeZero c ≤ 255) := by
  have hpos : 0 < maxValOf includeZero c := by
    have := maxValOf_nonneg includeZero c
    omega
  refine ⟨fun i he => maxValOf_upper includeZero c i he,
    maxValOf_attained includeZero c hmax,
    _, normalizeByteCount_of_ne w includeZero c hmax, ?_, ?_⟩
  · intro i hq
    rw [quotient_exact w (c i) _ (hnn i) (hov i) hpos]
    exact toUint8_of_le (Int.ediv_nonneg (by have := hnn i; omega) (by omega)) hq
  · intro i he
    exact quotient_le_255 (c i) _ hpos (maxValOf_upper includeZero c i he)

theorem normalizeByteCount_floor_witness :
    ∃ normalized, normalizeByteCount 64 false zeroHeavy = some normalized ∧
      (normalized 1 : Int) = zeroHeavy 1 * 255 / maxValOf false zeroHeavy := by
  obtain ⟨_, _, n, hn, hfloor, hle⟩ :=
    normalizeByteCount_floor 64 false zeroHeavy zeroHeavy_nonneg zeroHeavy_small
      (by rw [zeroHeavy_maxVal]; decide)
  exact ⟨n, hn, hfloor 1 (hle 1 (Or.inr (by decide)))⟩

/-- C1 (as stated, refuted): with `include_zero` false, counts 2 in bucket 0
and 1 in bucket 1 give `maxVal = 1`, and the value returned for index 0 is not
`floor(2 * 255 / 1) = 510`. -/
theorem normalizeByteCount_floor_fails_at_zero :
    (∀ i, 0 ≤ zeroHeavy i) ∧ (∀ i, zeroHeavy i * 255 < intHalf 64) ∧
    maxValOf false zeroHeavy ≠ 0 ∧
    ¬ ∃ normalized, normalizeByteCount 64 false zeroHeavy = some normalized ∧
        ∀ i, (normalized i : Int) = zeroHeavy i * 255 / maxValOf false zeroHeavy := by
  refine ⟨zeroHeavy_nonneg, zeroHeavy_small, by rw [zeroHeavy_maxVal]; decide, ?_⟩
  rintro ⟨n, hn, hall⟩
  have h0 := hall 0
  have hlt : n 0 ≤ 255 := by
    obtain ⟨m, hm, hb⟩ := normalizeByteCount_total 64 false zeroHeavy
    rw [hn] at hm
    cases hm
    exact hb 0
  rw [zeroHeavy_maxVal] at h0
  have : zeroHeavy 0 * 255 / 1 = 510 := by decide
  omega

/-- C2: when the bytes arrive as successive chunks of at most 1024 bytes (empty
chunks allowed) followed by end-of-input, `scanReader` returns with a `nil` error
and bucket `b` holds the number of occurrences of `b` in the concatenated chunks,
as a Go `int`: exactly that number whenever it fits the platform `int`. -/
theorem scanReader_counts_occurrences (w : Nat) (chunks : List (List Byte))
    (_hlen : ∀ c ∈ chunks, c.length ≤ 1024) :
    ∃ bc, scanReader w (cleanReads chunks) = some (bc, none) ∧
      (∀ b, bc b = wrapInt w (chunks.flatten.count b : Int)) ∧
      (∀ b, (chunks.flatten.count b : Int) < intHalf w →
        bc b = (chunks.flatten.count b : Int)) := by
  refine ⟨_, scanReader_cleanReads w chunks, fun b => countChunk_zero w _ b, fun b hb => ?_⟩
  rw [countChunk_zero, count_lt_wrap hb]

theorem scanReader_counts_occurrences_witness :
    ∃ bc, scanReader 64 (cleanReads [[65, 66], [], [65]]) = some (bc, none) ∧
      bc 65 = 2 := by
  obtain ⟨bc, hbc, _, hexact⟩ :=
    scanReader_counts_occurrences 64 [[65, 66], [], [65]] (by decide)
  exact ⟨bc, hbc, hexact 65 (by decide)⟩

/-- C3 (the code at the failing input): the byte `0x41` delivered in one read
together with end-of-input and the same byte delivered in a read of its own
before end-of-input are two splittings of one byte sequence, and `scanReader`
returns different histograms for them. -/
theorem scanReader_splitting_mismatch :
    (dataWithEof.map (fun r => r.data)).flatten = (dataThenEof.map (fun r => r.data)).flatten ∧
    ∃ bc1 bc2, scanReader 64 dataWithEof = some (bc1, none) ∧
      scanReader 64 dataThenEof = some (bc2, none) ∧ bc1 65 = 0 ∧ bc2 65 = 1 :=
  ⟨by decide, zeroCount, countChunk 64 zeroCount [65], rfl, rfl, by decide, by decide⟩

/-- C4 (the code at the failing input): a single read that returns one byte
together with end-of-input makes `scanReader` return with a `nil` error and an
all-zero histogram, so the buckets sum to 0 while 1 byte was returned. -/
theorem scanReader_drops_final_bytes :
    ∃ bc, scanReader 64 dataWithEof = some (bc, none) ∧
      bucketSum bc = 0 ∧ bytesReturned dataWithEof = 1 :=
  ⟨zeroCount, rfl, by decide!, by decide⟩

/-- C5: bucket `i` of `addByteCounts(a, b)` is the Go sum `a[i] + b[i]`, which is
the mathematical sum whenever that fits the platform `int`, and the loop leaves
the parameters `a` and `b` as they were passed. -/
theorem addByteCounts_spec (w : Nat) (a b : ByteCount) :
    (∀ i, addByteCounts w a b i = goAdd w (a i) (b i)) ∧
    (∀ i, InIntRange w (a i + b i) → addByteCounts w a b i = a i + b i) ∧
    (addByteCountsFrame w a b).a = a ∧ (addByteCountsFrame w a b).b = b := by
  refine ⟨fun i => addByteCounts_apply w a b i, fun i hi => ?_,
    addByteCountsFrame_params w a b⟩
  rw [addByteCounts_apply, wrapInt_of_inRange hi]

theorem addByteCounts_spec_witness :
    addByteCounts 64 zeroHeavy onlyZeroByte 0 = zeroHeavy 0 + onlyZeroByte 0 :=
  (addByteCounts_spec 64 zeroHeavy onlyZeroByte).2.1 0 (by decide)

/-- C6: `addByteCounts` is associative and commutative, also in its rotated
form, and the all-zero histogram is a left and right identity on histograms of
Go `int` values. -/
theorem addByteCounts_comm_monoid (w : Nat) (a b c : ByteCount)
    (ha : ∀ i, InIntRange w (a i)) :
    addByteCounts w (addByteCounts w a b) c = addByteCounts w a (addByteCounts w b c) ∧
    addByteCounts w a (addByteCounts w b c) = addByteCounts w b (addByteCounts w a c) ∧
    addByteCounts w a b = addByteCounts w b a ∧
    addByteCounts w zeroCount a = a ∧
    addByteCounts w a zeroCount = a := by
  refine ⟨funext fun i => ?_, funext fun i => ?_, funext fun i => ?_,
    funext fun i => ?_, funext fun i => ?_⟩
  · simp only [addByteCounts_apply]
    rw [wrapInt_add_left, wrapInt_add_right, add_assoc]
  · simp only [addByteCounts_apply]
    rw [wrapInt_add_right, wrapInt_add_right, add_left_comm]
  · simp only [addByteCounts_apply]
    rw [add_comm]
  · rw [addByteCounts_apply]
    simp only [zeroCount, zero_add]
    exact wrapInt_of_inRange (ha i)
  · rw [addByteCounts_apply]
    simp only [zeroCount, add_zero]
    exact wrapInt_of_inRange (ha i)

theorem zeroHeavy_inRange (i : Byte) : InIntRange 64 (zeroHeavy i) := by
  unfold zeroHeavy
  split_ifs <;> decide

theorem addByteCounts_comm_monoid_witness :
    addByteCounts 64 zeroHeavy onlyZeroByte = addByteCounts 64 onlyZeroByte zeroHeavy ∧
    addByteCounts 64 zeroHeavy zeroCount = zeroHeavy :=
  ⟨(addByteCounts_comm_monoid 64 zeroHeavy onlyZeroByte zeroCount zeroHeavy_inRange).2.2.1,
   (addByteCounts_comm_monoid 64 zeroHeavy onlyZeroByte zeroCount zeroHeavy_inRange).2.2.2.2⟩

/-- C7: when every bucket eligible for the maximum is zero, `maxVal` is zero
and `normalizeByteCount` returns the all-zero array without reaching the
division; so the all-zero histogram normalises to zeros under either flag, and
with `include_zero` false so does a histogram whose only non-zero bucket is
bucket 0. -/
theorem normalizeByteCount_zero_max (w : Nat) :
    (∀ (includeZero : Bool) (c : ByteCount),
      (∀ i, (includeZero = true ∨ i ≠ 0) → c i = 0) →
        maxValOf includeZero c = 0 ∧
        normalizeByteCount w includeZero c = some zeroNormalized) ∧
    (∀ includeZero : Bool, normalizeByteCount w includeZero zeroCount = some zeroNormalized) ∧
    (∀ c : ByteCount, (∀ i, i ≠ 0 → c i = 0) →
      normalizeByteCount w false c = some zeroNormalized) := by
  have key : ∀ (includeZero : Bool) (c : ByteCount),
      (∀ i, (includeZero = true ∨ i ≠ 0) → c i = 0) →
        maxValOf includeZero c = 0 ∧
        normalizeByteCount w includeZero c = some zeroNormalized := by
    intro includeZero c h
    have hz := maxValOf_eq_zero includeZero c h
    exact ⟨hz, normalizeByteCount_of_zero w includeZero c hz⟩
  refine ⟨key, fun includeZero => (key includeZero zeroCount fun _ _ => rfl).2, fun c h => ?_⟩
  refine (key false c fun i he => ?_).2
  rcases he with he | he
  · exact absurd he (by decide)
  · exact h i he

theorem normalizeByteCount_zero_max_witness :
    maxValOf false onlyZeroByte = 0 ∧
    normalizeByteCount 64 false onlyZeroByte = some zeroNormalized :=
  (normalizeByteCount_zero_max 64).1 false onlyZeroByte (by
    intro i he
    rcases he with he | he
    · exact absurd he (by decide)
    · unfold onlyZeroByte
      rw [if_neg he])

/-- C8: for non-negative counts whose products with 255 fit the platform `int`
and a positive `maxVal`, `normalizeByteCount` returns, every eligible bucket
whose count equals `maxVal` is normalised to exactly 255, and every normalised
value lies in 0..255. -/
theorem normalizeByteCount_range (w : Nat) (includeZero : Bool) (c : ByteCount)
    (hnn : ∀ i, 0 ≤ c i) (hov : ∀ i, c i * 255 < intHalf w)
    (hpos : 0 < maxValOf includeZero c) :
    ∃ normalized, normalizeByteCount w includeZero c = some normalized ∧
      (∀ i, (includeZero = true ∨ i ≠ 0) → c i = maxValOf includeZero c →
        normalized i = 255) ∧
      (∀ i, 0 ≤ normalized i ∧ normalized i ≤ 255) := by
  have hne : maxValOf includeZero c ≠ 0 := by omega
  refine ⟨_, normalizeByteCount_of_ne w includeZero c hne, fun i _ hc => ?_, fun i => ?_⟩
  · have hq := quotient_exact w (c i) _ (hnn i) (hov i) hpos
    have hval : c i * 255 / maxValOf includeZero c = 255 := by
      rw [hc]
      exact Int.mul_ediv_cancel_left 255 hne
    have := toUint8_of_le (q := c i * 255 / maxValOf includeZero c)
      (by omega) (by omega)
    rw [← hq] at this
    omega
  · have := toUint8_lt (wrapInt w (Int.tdiv (goMul w (c i) 255) (maxValOf includeZero c)))
    omega

theorem normalizeByteCount_range_witness :
    ∃ normalized, normalizeByteCount 64 false zeroHeavy = some normalized ∧
      normalized 1 = 255 := by
  obtain ⟨n, hn, hfull, _⟩ :=
    normalizeByteCount_range 64 false zeroHeavy zeroHeavy_nonneg zeroHeavy_small
      (by rw [zeroHeavy_maxVal]; decide)
  exact ⟨n, hn, hfull 1 (Or.inr (by decide)) (by rw [zeroHeavy_maxVal]; decide)⟩

/-- C9: `byteCountToImage` returns a 16x16 grid in which the pixel at column
`i mod 16`, row `i div 16` has intensity `255 - normalized[i]` for every byte
value `i`, where `normalized` is the result of `normalizeByteCount`; every cell
of the grid is the cell of exactly one `i`. -/
theorem byteCountToImage_layout (w : Nat) (includeZero : Bool) (c : ByteCount) :
    ∃ normalized img, normalizeByteCount w includeZero c = some normalized ∧
      byteCountToImage w includeZero c = some img ∧
      img.rect = { minX := 0, minY := 0, maxX := 16, maxY := 16 } ∧
      img.rect.Dx = 16 ∧ img.rect.Dy = 16 ∧
      (∀ i : Byte, normalized i ≤ 255 ∧
        img.At ((i.val : Int) % 16) ((i.val : Int) / 16) = 255 - normalized i) ∧
      (∀ x y : Int, 0 ≤ x → x < 16 → 0 ≤ y → y < 16 →
        ∃! i : Byte, (i.val : Int) % 16 = x ∧ (i.val : Int) / 16 = y) := by
  obtain ⟨n, hn, hle, himg⟩ := byteCountToImage_some w includeZero c
  obtain ⟨hrect, hpix⟩ := rasterLoop_spec n
  refine ⟨n, rasterImage n, hn, himg, hrect, ?_, ?_, fun i => ⟨hle i, ?_⟩, ?_⟩
  · rw [hrect]; rfl
  · rw [hrect]; rfl
  · rw [hpix i, subUint8_255 _ (hle i)]
  · intro x y hx0 hx1 hy0 hy1
    refine ⟨⟨(y * 16 + x).toNat, by omega⟩, ⟨by dsimp only; omega, by dsimp only; omega⟩, ?_⟩
    rintro j ⟨hj1, hj2⟩
    apply Fin.ext
    dsimp only
    omega

theorem byteCountToImage_layout_witness :
    ∃! i : Byte, (i.val : Int) % 16 = 1 ∧ (i.val : Int) / 16 = 4 := by
  obtain ⟨_, _, _, _, _, _, _, _, huniq⟩ := byteCountToImage_layout 64 false zeroHeavy
  exact huniq 1 4 (by decide) (by decide) (by decide) (by decide)

/-- C10 (amended): for a grid of width `w` and height `h` and a factor
`S >= 1` such that `w*S`, `h*S` and the pixel count `(w*S)*(h*S)` fit the
platform `int`, `resizeImage` returns a grid with origin (0,0) of width `w*S`
and height `h*S` in which pixel `(x, y)` equals source pixel
`(x div S, y div S)`, equivalently every pixel of the block at
`(x*S.., y*S..)` equals source pixel `(x, y)`; the 16x16 raster of
`byteCountToImage` becomes `16*S` by `16*S` when `(16*S)*(16*S)` fits.  Source
pixels are read with `At`, so for a source with origin (0,0) they are its own
pixels. -/
theorem resizeImage_replicates (w : Nat) (img : Gray) (S : Int)
    (hw : 0 ≤ img.rect.Dx) (hh : 0 ≤ img.rect.Dy) (hS : 1 ≤ S)
    (hwS : img.rect.Dx * S < intHalf w) (hhS : img.rect.Dy * S < intHalf w)
    (hsize : img.rect.Dx * S * (img.rect.Dy * S) < intHalf w) :
    (∃ r, resizeImage w img S = some r ∧
      r.rect = { minX := 0, minY := 0, maxX := img.rect.Dx * S, maxY := img.rect.Dy * S } ∧
      r.rect.Dx = img.rect.Dx * S ∧
      r.rect.Dy = img.rect.Dy * S ∧
      (∀ x y : Int, 0 ≤ x → x < img.rect.Dx * S → 0 ≤ y → y < img.rect.Dy * S →
        r.At x y = img.At (x / S) (y / S)) ∧
      (∀ x y i j : Int, 0 ≤ x → x < img.rect.Dx → 0 ≤ y → y < img.rect.Dy →
        0 ≤ i → i < S → 0 ≤ j → j < S →
        r.At (x * S + i) (y * S + j) = img.At x y)) ∧
    (16 * S * (16 * S) < intHalf w →
      ∀ (includeZero : Bool) (c : ByteCount),
        ∃ base rb, byteCountToImage w includeZero c = some base ∧
          resizeImage w base S = some rb ∧
          rb.rect.Dx = 16 * S ∧ rb.rect.Dy = 16 * S) := by
  refine ⟨?_, ?_⟩
  · obtain ⟨r, hr, hrect, hpix⟩ := resizeImage_pixels w img S hw hh hS hwS hhS hsize
    have hAt : ∀ x y : Int, 0 ≤ x → x < img.rect.Dx * S → 0 ≤ y → y < img.rect.Dy * S →
        r.At x y = img.At (x / S) (y / S) := by
      intro x y hx0 hx1 hy0 hy1
      rw [At_of_contains _ _ _ (by rw [hrect]; exact ⟨hx0, hx1, hy0, hy1⟩)]
      exact hpix x y hx0 hx1 hy0 hy1
    refine ⟨r, hr, hrect, by rw [hrect]; simp [Rectangle.Dx],
      by rw [hrect]; simp [Rectangle.Dy], hAt, ?_⟩
    intro x y i j hx0 hx1 hy0 hy1 hi0 hi1 hj0 hj1
    have hbx : x * S + i < img.rect.Dx * S := by nlinarith
    have hby : y * S + j < img.rect.Dy * S := by nlinarith
    rw [hAt _ _ (by positivity) hbx (by positivity) hby,
      block_div S x i hi0 hi1, block_div S y j hj0 hj1]
  · intro hfit includeZero c
    obtain ⟨n, _, _, hbase⟩ := byteCountToImage_some w includeZero c
    have hbrect := (rasterLoop_spec n).1
    have hdx : (rasterImage n).rect.Dx = 16 := by rw [hbrect]; rfl
    have hdy : (rasterImage n).rect.Dy = 16 := by rw [hbrect]; rfl
    have hp := intHalf_pos w
    have h16 : 16 * S < intHalf w := by nlinarith
    obtain ⟨rb, hrb, hrect, _⟩ := resizeImage_pixels w (rasterImage n) S
      (by rw [hdx]; decide) (by rw [hdy]; decide) hS (by rw [hdx]; exact h16)
      (by rw [hdy]; exact h16) (by rw [hdx, hdy]; exact hfit)
    refine ⟨rasterImage n, rb, hbase, hrb, ?_, ?_⟩
    · rw [hrect, hdx]; simp [Rectangle.Dx]
    · rw [hrect, hdy]; simp [Rectangle.Dy]

theorem resizeImage_replicates_witness :
    ∃ r, resizeImage 64 twoPixels 3 = some r ∧
      r.rect = { minX := 0, minY := 0, maxX := 6, maxY := 3 } ∧ r.At 4 2 = 20 := by
  obtain ⟨r, hr, hrect, _, _, hAt, _⟩ :=
    (resizeImage_replicates 64 twoPixels 3 (by decide) (by decide) (by decide)
      (by decide) (by decide) (by decide)).1
  exact ⟨r, hr, hrect, hAt 4 2 (by decide) (by decide) (by decide) (by decide)⟩

/-- C10 (as stated, refuted): on a 64-bit platform the 16x16 raster resized by
200000000 makes `image.NewGray` panic, so no image of 3200000000 by 3200000000
is returned; and the empty 4x0 image resized by `2^62` comes back with width 0,
not `4 * 2^62`. -/
theorem resizeImage_overflows :
    (∃ base, byteCountToImage 64 false zeroHeavy = some base ∧
      base.rect = { minX := 0, minY := 0, maxX := 16, maxY := 16 } ∧
      resizeImage 64 base 200000000 = none) ∧
    (0 ≤ fourByZero.rect.Dx ∧ 0 ≤ fourByZero.rect.Dy ∧
      ∃ r, resizeImage 64 fourByZero 4611686018427387904 = some r ∧
        r.rect = { minX := 0, minY := 0, maxX := 0, maxY := 0 } ∧
        r.rect.Dx ≠ fourByZero.rect.Dx * 4611686018427387904) := by
  refine ⟨?_, by decide, by decide, ?_⟩
  · obtain ⟨n, _, _, hbase⟩ := byteCountToImage_some 64 false zeroHeavy
    have hbrect := (rasterLoop_spec n).1
    refine ⟨rasterImage n, hbase, hbrect, ?_⟩
    rw [resizeImage_eq, hbrect, NewGray_none 64 _ (by decide)]
    rfl
  · have hR : Rect 0 0 (goMul 64 (goDx 64 fourByZero.rect) 4611686018427387904)
        (goMul 64 (goDy 64 fourByZero.rect) 4611686018427387904)
        = { minX := 0, minY := 0, maxX := 0, maxY := 0 } := by decide
    have hnew := NewGray_origin 64 0 0 (by decide) (by decide) (by decide) (by decide)
      (by decide)
    have hrect := resizeLoops_rect 64 fourByZero 4611686018427387904
      (goDx 64 fourByZero.rect) (goDy 64 fourByZero.rect)
      (zeroImage { minX := 0, minY := 0, maxX := 0, maxY := 0 })
    refine ⟨_, ?_, hrect, ?_⟩
    · rw [resizeImage_eq, hR, hnew]
      rfl
    · rw [hrect]
      decide

/-! ## isExcluded and the first error of a reader -/

theorem isExcluded_cons (matchFn : String → String → Bool × Option GoError)
    (pattern : String) (rest : List String) (path : String) :
    isExcluded matchFn (pattern :: rest) path
      = match matchFn pattern path with
        | (_, some err) => (false, some err)
        | (true, none) => (true, none)
        | (false, none) => isExcluded matchFn rest path := rfl

theorem isExcluded_of_match (matchFn : String → String → Bool × Option GoError)
    (pattern : String) (rest : List String) (path : String)
    (h : matchFn pattern path = (true, none)) :
    isExcluded matchFn (pattern :: rest) path = (true, none) := by
  rw [isExcluded_cons, h]

theorem isExcluded_of_error (matchFn : String → String → Bool × Option GoError)
    (pattern : String) (rest : List String) (path : String) (e : GoError)
    (h : (matchFn pattern path).2 = some e) :
    isExcluded matchFn (pattern :: rest) path = (false, some e) := by
  rw [isExcluded_cons]
  rcases hm : matchFn pattern path with ⟨b, err⟩
  rw [hm] at h
  cases h
  cases b <;> rfl

theorem isExcluded_of_nomatch (matchFn : String → String → Bool × Option GoError)
    (pattern : String) (rest : List String) (path : String)
    (h : matchFn pattern path = (false, none)) :
    isExcluded matchFn (pattern :: rest) path = isExcluded matchFn rest path := by
  rw [isExcluded_cons, h]

/-- Patterns that do not match and are well formed are passed over. -/
theorem isExcluded_skip (matchFn : String → String → Bool × Option GoError) (path : String) :
    ∀ (pre rest : List String), (∀ q ∈ pre, matchFn q path = (false, none)) →
      isExcluded matchFn (pre ++ rest) path = isExcluded matchFn rest path := by
  intro pre
  induction pre with
  | nil => intro rest _; rfl
  | cons q pre ih =>
    intro rest h
    rw [List.cons_append, isExcluded_of_nomatch matchFn q _ path (h q (List.mem_cons_self _ _))]
    exact ih rest (fun q' hq' => h q' (List.mem_cons_of_mem _ hq'))

theorem match_outcome (r : Bool × Option GoError) :
    r = (true, none) ∨ r = (false, none) ∨ ∃ e, r.2 = some e := by
  rcases r with ⟨b, err⟩
  cases err with
  | some e => exact Or.inr (Or.inr ⟨e, rfl⟩)
  | none =>
    cases b
    · exact Or.inr (Or.inl rfl)
    · exact Or.inl rfl

theorem scanLoop_cons_nil (w : Nat) (r : ReadResult) (rest : List ReadResult) (bc : ByteCount)
    (h : r.err = none) :
    scanLoop w (r :: rest) bc = scanLoop w rest (countChunk w bc r.data) := by
  simp only [scanLoop, h]

theorem scanLoop_cons_err (w : Nat) (r : ReadResult) (rest : List ReadResult) (bc : ByteCount)
    (e : ReadError) (h : r.err = some e) :
    scanLoop w (r :: rest) bc = some (bc, if e = ReadError.eof then none else some e) := by
  cases e with
  | eof => simp only [scanLoop, h, if_true]
  | other n => simp [scanLoop, h]

/-- Reads that report no error are counted and the loop goes on. -/
theorem scanLoop_skip (w : Nat) :
    ∀ (pre rest : List ReadResult) (bc : ByteCount), (∀ q ∈ pre, q.err = none) →
      scanLoop w (pre ++ rest) bc
        = scanLoop w rest (countChunk w bc (pre.map fun q => q.data).flatten) := by
  intro pre
  induction pre with
  | nil => intro rest bc _; rfl
  | cons q pre ih =>
    intro rest bc h
    rw [List.cons_append, scanLoop_cons_nil w q _ bc (h q (List.mem_cons_self _ _)),
      ih rest _ (fun q' hq' => h q' (List.mem_cons_of_mem _ hq')),
      List.map_cons, List.flatten_cons, countChunk_append]

/-! ## The file loops of run -/

theorem isExcluded_wellformed (matchFn : String → String → Bool × Option GoError)
    (path : String) :
    ∀ patterns : List String, (∀ p ∈ patterns, (matchFn p path).2 = none) →
      (isExcluded matchFn patterns path).2 = none := by
  intro patterns
  induction patterns with
  | nil => intro _; rfl
  | cons q rest ih =>
    intro h
    rcases match_outcome (matchFn q path) with hq | hq | ⟨e, hq⟩
    · rw [isExcluded_of_match matchFn q rest path hq]
    · rw [isExcluded_of_nomatch matchFn q rest path hq]
      exact ih (fun p hp => h p (List.mem_cons_of_mem _ hp))
    · rw [h q (List.mem_cons_self _ _)] at hq
      cases hq

theorem runFiles_cons_excluded (w : Nat) (matchFn : String → String → Bool × Option GoError)
    (excl : List String) (openFn : String → Except GoError (List ReadResult))
    (file : String) (rest : List String) (cum : ByteCount)
    (h : isExcluded matchFn excl file = (true, none)) :
    runFiles w matchFn excl openFn (file :: rest) cum
      = runFiles w matchFn excl openFn rest cum := by
  simp only [runFiles, h]

theorem runFiles_cons_scanned (w : Nat) (matchFn : String → String → Bool × Option GoError)
    (excl : List String) (openFn : String → Except GoError (List ReadResult))
    (file : String) (rest : List String) (cum counts : ByteCount)
    (h : isExcluded matchFn excl file = (false, none))
    (hs : scanPath w openFn file = some (counts, none)) :
    runFiles w matchFn excl openFn (file :: rest) cum
      = runFiles w matchFn excl openFn rest (addByteCounts w cum counts) := by
  simp only [runFiles, h, hs]

/-- The inner loop of `run` when no exclusion test fails and every file that is
not excluded scans to `counts`: the files that are not excluded are merged in
order. -/
theorem runFiles_spec (w : Nat) (matchFn : String → String → Bool × Option GoError)
    (excl : List String) (openFn : String → Except GoError (List ReadResult))
    (counts : String → ByteCount) :
    ∀ (files : List String) (cum : ByteCount),
      (∀ f ∈ files, (isExcluded matchFn excl f).2 = none) →
      (∀ f ∈ files, (isExcluded matchFn excl f).1 = false →
        scanPath w openFn f = some (counts f, none)) →
      runFiles w matchFn excl openFn files cum
        = some (Except.ok
            ((files.filter fun f => !(isExcluded matchFn excl f).1).foldl
              (fun c f => addByteCounts w c (counts f)) cum)) := by
  intro files
  induction files with
  | nil => intro cum _ _; rfl
  | cons f rest ih =>
    intro cum hwf hscan
    have hwf' : ∀ g ∈ rest, (isExcluded matchFn excl g).2 = none :=
      fun g hg => hwf g (List.mem_cons_of_mem _ hg)
    have hscan' : ∀ g ∈ rest, (isExcluded matchFn excl g).1 = false →
        scanPath w openFn g = some (counts g, none) :=
      fun g hg => hscan g (List.mem_cons_of_mem _ hg)
    have hf2 := hwf f (List.mem_cons_self _ _)
    rcases hex : isExcluded matchFn excl f with ⟨b, err⟩
    rw [hex] at hf2
    dsimp only at hf2
    subst hf2
    cases b with
    | true =>
      rw [runFiles_cons_excluded w matchFn excl openFn f rest cum hex, ih cum hwf' hscan']
      simp [List.filter_cons, hex]
    | false =>
      have hs := hscan f (List.mem_cons_self _ _) (by rw [hex])
      rw [runFiles_cons_scanned w matchFn excl openFn f rest cum (counts f) hex hs,
        ih _ hwf' hscan']
      simp [List.filter_cons, hex]

theorem runCumulative_cons (w : Nat) (matchFn : String → String → Bool × Option GoError)
    (excl : List String) (globFn : String → List String × Option GoError)
    (openFn : String → Except GoError (List ReadResult))
    (pattern : String) (rest files : List String) (cum cum' : ByteCount)
    (hg : globFn pattern = (files, none))
    (hf : runFiles w matchFn excl openFn files cum = some (Except.ok cum')) :
    runCumulative w matchFn excl globFn openFn (pattern :: rest) cum
      = runCumulative w matchFn excl globFn openFn rest cum' := by
  simp only [runCumulative, hg, hf]

/-- The two loops of `run` when every glob resolves, no exclusion test fails and
every resolved file that is not excluded scans to `counts`. -/
theorem runCumulative_spec (w : Nat) (matchFn : String → String → Bool × Option GoError)
    (excl : List String) (globFn : String → List String × Option GoError)
    (openFn : String → Except GoError (List ReadResult)) (counts : String → ByteCount) :
    ∀ (args : List String) (cum : ByteCount),
      (∀ a ∈ args, (globFn a).2 = none) →
      (∀ f ∈ (args.map fun a => (globFn a).1).flatten,
        (isExcluded matchFn excl f).2 = none) →
      (∀ f ∈ (args.map fun a => (globFn a).1).flatten,
        (isExcluded matchFn excl f).1 = false →
          scanPath w openFn f = some (counts f, none)) →
      runCumulative w matchFn excl globFn openFn args cum
        = some (Except.ok
            (((args.map fun a => (globFn a).1).flatten.filter
                fun f => !(isExcluded matchFn excl f).1).foldl
              (fun c f => addByteCounts w c (counts f)) cum)) := by
  intro args
  induction args with
  | nil => intro cum _ _ _; rfl
  | cons a rest ih =>
    intro cum hglob hwf hscan
    have hg : globFn a = ((globFn a).1, none) := by
      have := hglob a (List.mem_cons_self _ _)
      rcases hga : globFn a with ⟨fs, err⟩
      rw [hga] at this
      dsimp only at this
      subst this
      rfl
    have hmemL : ∀ f ∈ (globFn a).1,
        f ∈ ((a :: rest).map fun a => (globFn a).1).flatten := by
      intro f hf
      rw [List.map_cons, List.flatten_cons]
      exact List.mem_append_left _ hf
    have hmemR : ∀ f ∈ (rest.map fun a => (globFn a).1).flatten,
        f ∈ ((a :: rest).map fun a => (globFn a).1).flatten := by
      intro f hf
      rw [List.map_cons, List.flatten_cons]
      exact List.mem_append_right _ hf
    rw [runCumulative_cons w matchFn excl globFn openFn a rest (globFn a).1 cum _ hg
        (runFiles_spec w matchFn excl openFn counts (globFn a).1 cum
          (fun f hf => hwf f (hmemL f hf)) (fun f hf => hscan f (hmemL f hf))),
      ih _ (fun b hb => hglob b (List.mem_cons_of_mem _ hb))
        (fun f hf => hwf f (hmemR f hf)) (fun f hf => hscan f (hmemR f hf)),
      List.map_cons, List.flatten_cons, List.filter_append, List.foldl_append]

theorem scanPath_of_open (w : Nat) (openFn : String → Except GoError (List ReadResult))
    (path : String) (reads : List ReadResult) (h : openFn path = Except.ok reads) :
    scanPath w openFn path = scanReader w reads := by
  unfold scanPath
  rw [h]

/-- C12: with `filepath.Match` as a function of pattern and path, `isExcluded`
returns `(true, nil)` when a pattern matches and no earlier pattern is
malformed; it returns `(false, err)` with the error of a malformed pattern when
every earlier pattern is well formed and does not match, and some error with
`false` when merely no earlier pattern matches; it returns `(false, nil)` when
every pattern is well formed and none matches.  The patterns after the first
match or error do not influence the result. -/
theorem isExcluded_first_outcome (matchFn : String → String → Bool × Option GoError)
    (path : String) :
    (∀ (pre : List String) (p : String) (post : List String),
      (∀ q ∈ pre, (matchFn q path).2 = none) → matchFn p path = (true, none) →
        isExcluded matchFn (pre ++ p :: post) path = (true, none)) ∧
    (∀ (pre : List String) (p : String) (post : List String) (e : GoError),
      (∀ q ∈ pre, matchFn q path = (false, none)) → (matchFn p path).2 = some e →
        isExcluded matchFn (pre ++ p :: post) path = (false, some e)) ∧
    (∀ (pre : List String) (p : String) (post : List String) (e : GoError),
      (∀ q ∈ pre, matchFn q path ≠ (true, none)) → (matchFn p path).2 = some e →
        ∃ e', isExcluded matchFn (pre ++ p :: post) path = (false, some e')) ∧
    (∀ patterns : List String, (∀ q ∈ patterns, matchFn q path = (false, none)) →
      isExcluded matchFn patterns path = (false, none)) ∧
    (∀ (pre : List String) (p : String) (post post' : List String),
      (∀ q ∈ pre, matchFn q path = (false, none)) → matchFn p path ≠ (false, none) →
        isExcluded matchFn (pre ++ p :: post) path
          = isExcluded matchFn (pre ++ p :: post') path) := by
  refine ⟨?_, ?_, ?_, ?_, ?_⟩
  · intro pre
    induction pre with
    | nil => intro p post _ hp; exact isExcluded_of_match matchFn p post path hp
    | cons q pre ih =>
      intro p post hpre hp
      rw [List.cons_append]
      rcases match_outcome (matchFn q path) with hq | hq | ⟨e, hq⟩
      · exact isExcluded_of_match matchFn q _ path hq
      · rw [isExcluded_of_nomatch matchFn q _ path hq]
        exact ih p post (fun q' hq' => hpre q' (List.mem_cons_of_mem _ hq')) hp
      · rw [hpre q (List.mem_cons_self _ _)] at hq
        cases hq
  · intro pre p post e hpre hp
    rw [isExcluded_skip matchFn path pre _ hpre]
    exact isExcluded_of_error matchFn p post path e hp
  · intro pre
    induction pre with
    | nil => intro p post e _ hp; exact ⟨e, isExcluded_of_error matchFn p post path e hp⟩
    | cons q pre ih =>
      intro p post e hpre hp
      rw [List.cons_append]
      rcases match_outcome (matchFn q path) with hq | hq | ⟨e', hq⟩
      · exact absurd hq (hpre q (List.mem_cons_self _ _))
      · rw [isExcluded_of_nomatch matchFn q _ path hq]
        exact ih p post e (fun q' hq' => hpre q' (List.mem_cons_of_mem _ hq')) hp
      · exact ⟨e', isExcluded_of_error matchFn q _ path e' hq⟩
  · intro patterns h
    have := isExcluded_skip matchFn path patterns [] h
    rw [List.append_nil] at this
    rw [this]
    rfl
  · intro pre p post post' hpre hp
    rw [isExcluded_skip matchFn path pre _ hpre, isExcluded_skip matchFn path pre _ hpre]
    rcases match_outcome (matchFn p path) with hq | hq | ⟨e, hq⟩
    · rw [isExcluded_of_match matchFn p post path hq, isExcluded_of_match matchFn p post' path hq]
    · exact absurd hq hp
    · rw [isExcluded_of_error matchFn p post path e hq,
        isExcluded_of_error matchFn p post' path e hq]

theorem isExcluded_first_outcome_witness :
    isExcluded literalMatch (["b.bin"] ++ "a.bin" :: ["["]) "a.bin" = (true, none) ∧
    isExcluded literalMatch (["b.bin"] ++ "[" :: ["a.bin"]) "a.bin"
      = (false, some (ReadError.other 1)) :=
  ⟨(isExcluded_first_outcome literalMatch "a.bin").1 ["b.bin"] "a.bin" ["["]
      (by decide) (by decide),
   (isExcluded_first_outcome literalMatch "a.bin").2.1 ["b.bin"] "[" ["a.bin"]
      (ReadError.other 1) (by decide) (by decide)⟩

/-- C13: when the reads before the first error carry no error, `scanReader`
returns the histogram of their bytes; its error is `nil` exactly when that first
error is `io.EOF`, and otherwise it is that same error; the reads after the
first error do not influence the result. -/
theorem scanReader_first_error (w : Nat) (pre : List ReadResult) (r : ReadResult)
    (post : List ReadResult) (e : ReadError)
    (hpre : ∀ q ∈ pre, q.err = none) (hr : r.err = some e) :
    ∃ err, scanReader w (pre ++ r :: post)
        = some (countChunk w zeroCount (pre.map fun q => q.data).flatten, err) ∧
      (err = none ↔ e = ReadError.eof) ∧
      (e ≠ ReadError.eof → err = some e) ∧
      scanReader w (pre ++ r :: post) = scanReader w (pre ++ [r]) := by
  have hrun : ∀ rest, scanReader w (pre ++ r :: rest)
      = some (countChunk w zeroCount (pre.map fun q => q.data).flatten,
          if e = ReadError.eof then none else some e) := by
    intro rest
    unfold scanReader
    rw [scanLoop_skip w pre _ _ hpre, scanLoop_cons_err w r rest _ e hr]
  refine ⟨_, hrun post, ?_, ?_, ?_⟩
  · by_cases he : e = ReadError.eof
    · simp [he]
    · simp [he]
  · intro he
    rw [if_neg he]
  · rw [hrun post, hrun []]

theorem scanReader_first_error_witness :
    ∃ err, scanReader 64
        ([{ data := [65], err := none }]
          ++ { data := [66], err := some (ReadError.other 5) } :: dataThenEof)
        = some (countChunk 64 zeroCount [65], err) ∧ err = some (ReadError.other 5) := by
  obtain ⟨err, hscan, _, hsame, _⟩ :=
    scanReader_first_error 64 [{ data := [65], err := none }]
      { data := [66], err := some (ReadError.other 5) } dataThenEof (ReadError.other 5)
      (by simp) rfl
  exact ⟨err, hscan, hsame (by decide)⟩

/-- C14: when every include glob resolves, the exclusion patterns are well
formed and every resolved file that is not excluded opens and scans to a
histogram, the cumulative histogram of `run` is the `addByteCounts` fold, from
the all-zero histogram, of the `scanReader` histograms of exactly the resolved
files for which `isExcluded` is false, in order and with multiplicity; what
`os.Open` would do on an excluded file does not influence it. -/
theorem run_merges_unexcluded (w : Nat) (matchFn : String → String → Bool × Option GoError)
    (excl : List String) (globFn : String → List String × Option GoError)
    (openFn : String → Except GoError (List ReadResult)) (args : List String)
    (reads : String → List ReadResult) (counts : String → ByteCount)
    (hpat : ∀ p ∈ excl, ∀ path, (matchFn p path).2 = none)
    (hglob : ∀ a ∈ args, (globFn a).2 = none)
    (hscan : ∀ f ∈ (args.map fun a => (globFn a).1).flatten,
      (isExcluded matchFn excl f).1 = false →
        openFn f = Except.ok (reads f) ∧ scanReader w (reads f) = some (counts f, none)) :
    runCumulative w matchFn excl globFn openFn args zeroCount
      = some (Except.ok
          (((args.map fun a => (globFn a).1).flatten.filter
              fun f => !(isExcluded matchFn excl f).1).foldl
            (fun c f => addByteCounts w c (counts f)) zeroCount)) ∧
    (∀ openFn' : String → Except GoError (List ReadResult),
      (∀ f, (isExcluded matchFn excl f).1 = false → openFn' f = openFn f) →
        runCumulative w matchFn excl globFn openFn' args zeroCount
          = runCumulative w matchFn excl globFn openFn args zeroCount) := by
  have hwf : ∀ f ∈ (args.map fun a => (globFn a).1).flatten,
      (isExcluded matchFn excl f).2 = none :=
    fun f _ => isExcluded_wellformed matchFn f excl (fun p hp => hpat p hp f)
  have hmain : ∀ open' : String → Except GoError (List ReadResult),
      (∀ f, (isExcluded matchFn excl f).1 = false → open' f = openFn f) →
      runCumulative w matchFn excl globFn open' args zeroCount
        = some (Except.ok
            (((args.map fun a => (globFn a).1).flatten.filter
                fun f => !(isExcluded matchFn excl f).1).foldl
              (fun c f => addByteCounts w c (counts f)) zeroCount)) := by
    intro open' hsame
    apply runCumulative_spec w matchFn excl globFn open' counts args zeroCount hglob hwf
    intro f hf hex
    obtain ⟨hopen, hread⟩ := hscan f hf hex
    rw [scanPath_of_open w open' f (reads f) (by rw [hsame f hex, hopen]), hread]
  refine ⟨hmain openFn (fun _ _ => rfl), fun openFn' hsame => ?_⟩
  rw [hmain openFn' hsame, hmain openFn (fun _ _ => rfl)]

theorem literalMatch_skip (path : String) : (literalMatch "skip.bin" path).2 = none := by
  unfold literalMatch
  rw [if_neg (by decide)]
  split <;> rfl

theorem run_merges_unexcluded_witness :
    runCumulative 64 literalMatch ["skip.bin"] demoGlob demoOpen ["*"] zeroCount
      = some (Except.ok (addByteCounts 64 zeroCount (countChunk 64 zeroCount [65]))) := by
  have h := (run_merges_unexcluded 64 literalMatch ["skip.bin"] demoGlob demoOpen ["*"]
    (fun _ => dataThenEof) (fun _ => countChunk 64 zeroCount [65])
    (by
      intro p hp path
      rw [List.mem_singleton] at hp
      rw [hp]
      exact literalMatch_skip path)
    (by decide)
    (by
      intro f hf hex
      have hcases : f = "a.bin" ∨ f = "skip.bin" := by
        simpa [demoGlob] using hf
      rcases hcases with rfl | rfl
      · exact ⟨rfl, rfl⟩
      · exact absurd hex (by decide))).1
  rw [h]
  rfl

/-! ## The scale factor -/

theorem runRaster_of_le_one (w : Nat) (includeZero : Bool) (scale : Int) (c : ByteCount)
    (hs : scale ≤ 1) : runRaster w includeZero scale c = byteCountToImage w includeZero c := by
  unfold runRaster
  have hfun : (fun img : Gray => if scale > 1 then resizeImage w img scale else some img)
      = fun img => some img := by
    funext img
    rw [if_neg (by omega)]
  rw [hfun]
  generalize byteCountToImage w includeZero c = o
  cases o <;> rfl

theorem run_of_cumulative (w : Nat) (includeZero : Bool) (scale : Int) (excl : List String)
    (matchFn : String → String → Bool × Option GoError)
    (globFn : String → List String × Option GoError)
    (openFn : String → Except GoError (List ReadResult))
    (encodeFn : Gray → Option GoError) (args : List String) (cum : ByteCount) (img : Gray)
    (hargs : args ≠ [])
    (hcum : runCumulative w matchFn excl globFn openFn args zeroCount = some (Except.ok cum))
    (himg : runRaster w includeZero scale cum = some img) :
    run w includeZero scale excl matchFn globFn openFn encodeFn args
      = some (RunResult.encoded img (encodeFn img)) := by
  unfold run
  rw [if_neg (by
    intro h
    exact hargs (List.length_eq_zero.1 h))]
  simp only [hcum, himg]

/-- With a non-positive multiplier `resizeImage` returns whatever
`image.NewGray` yields for the scaled bounds: its loops set no pixel. -/
theorem resizeImage_nonpos (w : Nat) (img : Gray) (m : Int) (hm : m ≤ 0) :
    resizeImage w img m
      = NewGray w (Rect 0 0 (goMul w (goDx w img.rect) m) (goMul w (goDy w img.rect) m)) := by
  rw [resizeImage_eq]
  have hid : resizeLoops w img m (goDx w img.rect) (goDy w img.rect) = fun g => g :=
    funext fun g => resizeLoops_nonpos w img m _ _ g hm
  rw [hid]
  generalize NewGray w (Rect 0 0 (goMul w (goDx w img.rect) m)
    (goMul w (goDy w img.rect) m)) = o
  cases o <;> rfl

/-- An image returned by `image.NewGray` reads zero at every point. -/
theorem NewGray_At (w : Nat) (r : Rectangle) (g : Gray) (h : NewGray w r = some g) :
    ∀ x y : Int, g.At x y = 0 := by
  unfold NewGray at h
  split at h
  · cases h
  · cases h
    intro x y
    unfold Gray.At zeroImage
    split <;> rfl

/-- With factor 1 `resizeImage` returns an image with the bounds and the pixels
of a source whose origin is (0,0) and whose size fits the platform `int`. -/
theorem resizeImage_one (w : Nat) (img : Gray) (hminX : img.rect.minX = 0)
    (hminY : img.rect.minY = 0) (hw : 0 ≤ img.rect.maxX) (hh : 0 ≤ img.rect.maxY)
    (hx : img.rect.maxX < intHalf w) (hy : img.rect.maxY < intHalf w)
    (hsz : img.rect.maxX * img.rect.maxY < intHalf w) :
    ∃ r, resizeImage w img 1 = some r ∧ r.rect = img.rect ∧
      ∀ x y : Int, r.At x y = img.At x y := by
  have hdx : img.rect.Dx = img.rect.maxX := by unfold Rectangle.Dx; omega
  have hdy : img.rect.Dy = img.rect.maxY := by unfold Rectangle.Dy; omega
  obtain ⟨r, hres, hrect, hpix⟩ :=
    resizeImage_pixels w img 1 (by omega) (by omega) (le_refl 1)
      (by rw [hdx, mul_one]; exact hx) (by rw [hdy, mul_one]; exact hy)
      (by rw [hdx, hdy, mul_one, mul_one]; exact hsz)
  have hsame : r.rect = img.rect := by
    rw [hrect, hdx, hdy, mul_one, mul_one]
    rcases hr : img.rect with ⟨a, b, c, d⟩
    rw [hr] at hminX hminY
    dsimp only at hminX hminY
    rw [hminX, hminY]
  refine ⟨r, hres, hsame, fun x y => ?_⟩
  by_cases hc : img.rect.Contains x y
  · have hc' : r.rect.Contains x y := by rw [hsame]; exact hc
    obtain ⟨h1, h2, h3, h4⟩ := hc
    rw [At_of_contains _ _ _ hc',
      hpix x y (by omega) (by omega) (by omega) (by omega), Int.ediv_one, Int.ediv_one]
  · have hc' : ¬ r.rect.Contains x y := by rw [hsame]; exact hc
    unfold Gray.At
    rw [if_neg hc, if_neg hc']

/-- C11 (amended): a non-positive scale factor raises no error.  The raster
step of `run` resizes only when `scale > 1`, so it yields the 16x16 raster of
`byteCountToImage` and `run` hands that raster to the encoder; `resizeImage`
applied directly sets no pixel: it returns what `image.NewGray` yields for
`image.Rect(0, 0, w*scale, h*scale)`, and an image it returns reads zero at
every point. -/
theorem nonpositive_scale_yields_image (w : Nat) (includeZero : Bool) (scale : Int)
    (hs : scale ≤ 0) :
    (∀ c : ByteCount, runRaster w includeZero scale c = byteCountToImage w includeZero c ∧
      ∃ img, runRaster w includeZero scale c = some img ∧
        img.rect = { minX := 0, minY := 0, maxX := 16, maxY := 16 }) ∧
    (∀ img : Gray,
      resizeImage w img scale
        = NewGray w (Rect 0 0 (goMul w (goDx w img.rect) scale)
            (goMul w (goDy w img.rect) scale)) ∧
      ∀ r, resizeImage w img scale = some r → ∀ x y : Int, r.At x y = 0) ∧
    (∀ (excl : List String) (matchFn : String → String → Bool × Option GoError)
      (globFn : String → List String × Option GoError)
      (openFn : String → Except GoError (List ReadResult))
      (encodeFn : Gray → Option GoError) (args : List String) (cum : ByteCount),
      args ≠ [] →
      runCumulative w matchFn excl globFn openFn args zeroCount = some (Except.ok cum) →
      ∃ img, byteCountToImage w includeZero cum = some img ∧
        run w includeZero scale excl matchFn globFn openFn encodeFn args
          = some (RunResult.encoded img (encodeFn img))) := by
  refine ⟨fun c => ?_, fun img => ?_, ?_⟩
  · have hsame := runRaster_of_le_one w includeZero scale c (by omega)
    obtain ⟨n, _, _, himg⟩ := byteCountToImage_some w includeZero c
    exact ⟨hsame, rasterImage n, by rw [hsame, himg], (rasterLoop_spec n).1⟩
  · have hres := resizeImage_nonpos w img scale hs
    refine ⟨hres, fun r hr => ?_⟩
    rw [hres] at hr
    exact NewGray_At w _ r hr
  · intro excl matchFn globFn openFn encodeFn args cum hargs hcum
    obtain ⟨n, _, _, himg⟩ := byteCountToImage_some w includeZero cum
    refine ⟨rasterImage n, himg, ?_⟩
    exact run_of_cumulative w includeZero scale excl matchFn globFn openFn encodeFn args cum _
      hargs hcum (by rw [runRaster_of_le_one w includeZero scale cum (by omega), himg])

theorem nonpositive_scale_yields_image_witness :
    runRaster 64 false (-3) zeroHeavy = byteCountToImage 64 false zeroHeavy ∧
    resizeImage 64 twoPixels (-3)
      = NewGray 64 (Rect 0 0 (goMul 64 (goDx 64 twoPixels.rect) (-3))
          (goMul 64 (goDy 64 twoPixels.rect) (-3))) :=
  ⟨((nonpositive_scale_yields_image 64 false (-3) (by decide)).1 zeroHeavy).1,
   ((nonpositive_scale_yields_image 64 false (-3) (by decide)).2.1 twoPixels).1⟩

/-- C11 (as stated, refuted): with scale 0 the raster step of `run` produces
the 16x16 image, and `resizeImage` applied to a 2x1 image with factor 0 or -1
returns an image. -/
theorem zero_scale_not_rejected :
    (∃ img, runRaster 64 false 0 zeroHeavy = some img ∧
      img.rect = { minX := 0, minY := 0, maxX := 16, maxY := 16 }) ∧
    (∃ r, resizeImage 64 twoPixels 0 = some r ∧
      r.rect = { minX := 0, minY := 0, maxX := 0, maxY := 0 }) ∧
    (∃ r, resizeImage 64 twoPixels (-1) = some r ∧
      r.rect = { minX := -2, minY := -1, maxX := 0, maxY := 0 }) := by
  refine ⟨?_, ?_, ?_⟩
  · obtain ⟨n, _, _, himg⟩ := byteCountToImage_some 64 false zeroHeavy
    exact ⟨rasterImage n,
      by rw [runRaster_of_le_one 64 false 0 zeroHeavy (by decide), himg],
      (rasterLoop_spec n).1⟩
  · have hR : Rect 0 0 (goMul 64 (goDx 64 twoPixels.rect) 0)
        (goMul 64 (goDy 64 twoPixels.rect) 0)
        = { minX := 0, minY := 0, maxX := 0, maxY := 0 } := by decide
    refine ⟨zeroImage { minX := 0, minY := 0, maxX := 0, maxY := 0 }, ?_, rfl⟩
    rw [resizeImage_nonpos 64 twoPixels 0 (by decide), hR]
    exact NewGray_origin 64 0 0 (by decide) (by decide) (by decide) (by decide) (by decide)
  · have hR : Rect 0 0 (goMul 64 (goDx 64 twoPixels.rect) (-1))
        (goMul 64 (goDy 64 twoPixels.rect) (-1))
        = { minX := -2, minY := -1, maxX := 0, maxY := 0 } := by decide
    refine ⟨zeroImage { minX := -2, minY := -1, maxX := 0, maxY := 0 }, ?_, rfl⟩
    rw [resizeImage_nonpos 64 twoPixels (-1) (by decide), hR]
    exact NewGray_of_fits 64 _ (by decide) (by decide) (by decide) (by decide) (by decide)

/-- C17: `resizeImage` with factor 1 returns an image with the bounds of a
source with origin (0,0) and the same pixel at every coordinate, for every
source whose width, height and pixel count are Go `int` values; the raster
step of `run` with scale 1 yields exactly the grid of `byteCountToImage`, and
resizing that grid by 1 would give the same bounds and pixels. -/
theorem upscale_identity :
    (∀ (w : Nat) (img : Gray), img.rect.minX = 0 → img.rect.minY = 0 →
      0 ≤ img.rect.maxX → 0 ≤ img.rect.maxY →
      img.rect.maxX < intHalf w → img.rect.maxY < intHalf w →
      img.rect.maxX * img.rect.maxY < intHalf w →
      ∃ r, resizeImage w img 1 = some r ∧ r.rect = img.rect ∧
        ∀ x y : Int, r.At x y = img.At x y) ∧
    (∀ (w : Nat) (includeZero : Bool) (c : ByteCount),
      runRaster w includeZero 1 c = byteCountToImage w includeZero c ∧
      ∃ base, byteCountToImage w includeZero c = some base ∧
        runRaster w includeZero 1 c = some base ∧
        base.rect = { minX := 0, minY := 0, maxX := 16, maxY := 16 } ∧
        ∃ r, resizeImage w base 1 = some r ∧ r.rect = base.rect ∧
          ∀ x y : Int, r.At x y = base.At x y) := by
  refine ⟨fun w img h1 h2 h3 h4 h5 h6 h7 => resizeImage_one w img h1 h2 h3 h4 h5 h6 h7,
    fun w includeZero c => ?_⟩
  have hsame := runRaster_of_le_one w includeZero 1 c (le_refl 1)
  obtain ⟨n, _, _, himg⟩ := byteCountToImage_some w includeZero c
  have hrect := (rasterLoop_spec n).1
  have hge := intHalf_ge w
  have hone := resizeImage_one w (rasterImage n)
    (by rw [hrect]) (by rw [hrect]) (by rw [hrect]; decide) (by rw [hrect]; decide)
    (by rw [hrect]; dsimp only; omega) (by rw [hrect]; dsimp only; omega)
    (by rw [hrect]; dsimp only; omega)
  exact ⟨hsame, rasterImage n, himg, by rw [hsame, himg], hrect, hone⟩

theorem upscale_identity_witness :
    ∃ r, resizeImage 64 twoPixels 1 = some r ∧ r.rect = twoPixels.rect ∧
      r.At 1 0 = twoPixels.At 1 0 := by
  obtain ⟨r, hr, hrect, hAt⟩ :=
    upscale_identity.1 64 twoPixels rfl rfl (by decide) (by decide) (by decide) (by decide)
      (by decide)
  exact ⟨r, hr, hrect, hAt 1 0⟩

/-! ## Normalised entries and the include_zero flag -/

/-- The entries of the normalised array for a positive `maxVal`: the floor of the
quotient wherever the count is non-negative, its product with 255 fits the
platform `int` and the quotient is at most 255. -/
theorem normalizeByteCount_entry (w : Nat) (includeZero : Bool) (c : ByteCount)
    (hpos : 0 < maxValOf includeZero c) :
    ∃ n, normalizeByteCount w includeZero c = some n ∧
      ∀ i, 0 ≤ c i → c i * 255 < intHalf w → c i * 255 / maxValOf includeZero c ≤ 255 →
        goDiv w (goMul w (c i) 255) (maxValOf includeZero c)
            = some (c i * 255 / maxValOf includeZero c) ∧
        (n i : Int) = c i * 255 / maxValOf includeZero c := by
  have hne : maxValOf includeZero c ≠ 0 := by omega
  refine ⟨_, normalizeByteCount_of_ne w includeZero c hne, fun i h0 hov hq => ?_⟩
  have hex := quotient_exact w (c i) _ h0 hov hpos
  refine ⟨by rw [goDiv_of_ne w _ _ hne, hex], ?_⟩
  rw [hex]
  exact toUint8_of_le (Int.ediv_nonneg (by omega) (by omega)) hq

/-- The value of `maxVal` is determined by being attained by an eligible bucket
and bounding every eligible bucket. -/
theorem maxValOf_unique (includeZero : Bool) (c : ByteCount) (m : Int) (h0 : 0 ≤ m)
    (hub : ∀ i, (includeZero = true ∨ i ≠ 0) → c i ≤ m)
    (hat : ∃ i, (includeZero = true ∨ i ≠ 0) ∧ c i = m) :
    maxValOf includeZero c = m := by
  obtain ⟨i, he, hi⟩ := hat
  have h1 : m ≤ maxValOf includeZero c := by
    rw [← hi]
    exact maxValOf_upper includeZero c i he
  have h2 : maxValOf includeZero c ≤ m := by
    by_cases hz : maxValOf includeZero c = 0
    · omega
    · obtain ⟨j, hje, hj⟩ := maxValOf_attained includeZero c hz
      rw [← hj]
      exact hub j hje
  omega

theorem zeroHeavy_pixels :
    (byteCountToImage 64 false zeroHeavy).map (fun g => (g.At 0 0, g.At 1 0))
      = some (1, 0) := by decide!

/-- C15 (the code at the failing input): with `include_zero` false and counts 2
in bucket 0 and 1 in bucket 1, bucket 0 is the more frequent one, yet its pixel
at (0,0) has intensity 1 while the pixel of bucket 1 at (1,0) has intensity 0. -/
theorem darker_fails_for_dominant_zero :
    zeroHeavy 0 ≥ zeroHeavy 1 ∧
    (∀ i, 0 ≤ zeroHeavy i) ∧ (∀ i, zeroHeavy i * 255 < intHalf 64) ∧
    ∃ img, byteCountToImage 64 false zeroHeavy = some img ∧
      img.At 0 0 = 1 ∧ img.At 1 0 = 0 := by
  refine ⟨by decide, zeroHeavy_nonneg, zeroHeavy_small, ?_⟩
  have h := zeroHeavy_pixels
  cases himg : byteCountToImage 64 false zeroHeavy with
  | none => rw [himg] at h; cases h
  | some img =>
    rw [himg] at h
    simp only [Option.map_some', Option.some.injEq, Prod.mk.injEq] at h
    exact ⟨img, rfl, h.1, h.2⟩

/-- C19: for non-negative counts whose products with 255 fit the platform `int`
and a positive `maxVal`, at every bucket eligible for the maximum the quotient
`counts[i]*255/maxVal` lies in 0..255, the machine division returns it, and the
8-bit conversion keeps it: `normalized[i]` is the floor of the quotient; with
`include_zero` true this holds at all 256 buckets. -/
theorem eligible_quotient_fits (w : Nat) (includeZero : Bool) (c : ByteCount)
    (hnn : ∀ i, 0 ≤ c i) (hov : ∀ i, c i * 255 < intHalf w)
    (hpos : 0 < maxValOf includeZero c) :
    ∃ normalized, normalizeByteCount w includeZero c = some normalized ∧
      (∀ i, (includeZero = true ∨ i ≠ 0) →
        0 ≤ c i * 255 / maxValOf includeZero c ∧
        c i * 255 / maxValOf includeZero c ≤ 255 ∧
        goDiv w (goMul w (c i) 255) (maxValOf includeZero c)
            = some (c i * 255 / maxValOf includeZero c) ∧
        toUint8 (c i * 255 / maxValOf includeZero c) = normalized i ∧
        (normalized i : Int) = c i * 255 / maxValOf includeZero c) ∧
      (includeZero = true →
        ∀ i, (normalized i : Int) = c i * 255 / maxValOf includeZero c) := by
  obtain ⟨n, hn, hentry⟩ := normalizeByteCount_entry w includeZero c hpos
  have hel : ∀ i, (includeZero = true ∨ i ≠ 0) →
      0 ≤ c i * 255 / maxValOf includeZero c ∧
      c i * 255 / maxValOf includeZero c ≤ 255 ∧
      goDiv w (goMul w (c i) 255) (maxValOf includeZero c)
          = some (c i * 255 / maxValOf includeZero c) ∧
      toUint8 (c i * 255 / maxValOf includeZero c) = n i ∧
      (n i : Int) = c i * 255 / maxValOf includeZero c := by
    intro i he
    have hq0 : 0 ≤ c i * 255 / maxValOf includeZero c :=
      Int.ediv_nonneg (by have := hnn i; omega) (by omega)
    have hq1 := quotient_le_255 (c i) _ hpos (maxValOf_upper includeZero c i he)
    obtain ⟨hdiv, hval⟩ := hentry i (hnn i) (hov i) hq1
    refine ⟨hq0, hq1, hdiv, ?_, hval⟩
    have := toUint8_of_le hq0 hq1
    omega
  exact ⟨n, hn, hel, fun hz i => (hel i (Or.inl hz)).2.2.2.2⟩

theorem eligible_quotient_fits_witness :
    ∃ normalized, normalizeByteCount 64 false zeroHeavy = some normalized ∧
      (normalized 1 : Int) = zeroHeavy 1 * 255 / maxValOf false zeroHeavy := by
  obtain ⟨n, hn, hel, _⟩ :=
    eligible_quotient_fits 64 false zeroHeavy zeroHeavy_nonneg zeroHeavy_small
      (by rw [zeroHeavy_maxVal]; decide)
  exact ⟨n, hn, (hel 1 (Or.inr (by decide))).2.2.2.2⟩

/-- C20: when some bucket other than bucket 0 holds at least the count of
bucket 0, `maxVal` is the same under both values of `include_zero`, and
`normalizeByteCount` returns the same array under both. -/
theorem includeZero_irrelevant (w : Nat) (c : ByteCount)
    (h : ∃ k : Byte, k ≠ 0 ∧ c 0 ≤ c k) :
    maxValOf true c = maxValOf false c ∧
    normalizeByteCount w true c = normalizeByteCount w false c ∧
    ∀ i, (normalizeByteCount w true c).map (fun n => n i)
      = (normalizeByteCount w false c).map (fun n => n i) := by
  obtain ⟨k, hk, hle⟩ := h
  have hmax : maxValOf true c = maxValOf false c := by
    have h1 : maxValOf true c ≤ maxValOf false c := by
      by_cases hz : maxValOf true c = 0
      · rw [hz]
        exact maxValOf_nonneg false c
      · obtain ⟨j, _, hj⟩ := maxValOf_attained true c hz
        rw [← hj]
        by_cases hj0 : j = 0
        · rw [hj0]
          exact le_trans hle (maxValOf_upper false c k (Or.inr hk))
        · exact maxValOf_upper false c j (Or.inr hj0)
    have h2 : maxValOf false c ≤ maxValOf true c := by
      by_cases hz : maxValOf false c = 0
      · rw [hz]
        exact maxValOf_nonneg true c
      · obtain ⟨j, _, hj⟩ := maxValOf_attained false c hz
        rw [← hj]
        exact maxValOf_upper true c j (Or.inl rfl)
    omega
  have hsame : normalizeByteCount w true c = normalizeByteCount w false c := by
    unfold normalizeByteCount
    simp only [hmax]
  exact ⟨hmax, hsame, fun i => by rw [hsame]⟩

theorem includeZero_irrelevant_witness :
    normalizeByteCount 64 true oneHeavy = normalizeByteCount 64 false oneHeavy :=
  (includeZero_irrelevant 64 oneHeavy ⟨1, by decide, by decide⟩).2.1

/-! ## Scanning and merging -/

theorem addByteCounts_countChunk (w : Nat) (xs ys : List Byte) :
    addByteCounts w (countChunk w zeroCount xs) (countChunk w zeroCount ys)
      = countChunk w zeroCount (xs ++ ys) := by
  funext b
  rw [addByteCounts_apply, countChunk_zero, countChunk_zero, countChunk_zero,
    List.count_append, wrapInt_add_left, wrapInt_add_right]
  push_cast
  rfl

theorem foldlM_some {α β : Type} (g : β → α → β) :
    ∀ (l : List α) (init : β),
      l.foldlM (fun acc x => some (g acc x)) init = some (l.foldl g init) := by
  intro l
  induction l with
  | nil => intro init; rfl
  | cons x l ih =>
    intro init
    simp only [List.foldlM_cons, List.foldl_cons, Option.some_bind, Option.bind_eq_bind]
    exact ih _

/-- Merging the histograms of files one after the other gives the histogram of
the concatenated bytes. -/
theorem merge_fold (w : Nat) :
    ∀ (files : List (List (List Byte))) (pre : List Byte),
      files.foldl (fun cum f => addByteCounts w cum (countChunk w zeroCount f.flatten))
          (countChunk w zeroCount pre)
        = countChunk w zeroCount (pre ++ files.flatten.flatten) := by
  intro files
  induction files with
  | nil => intro pre; simp
  | cons f rest ih =>
    intro pre
    rw [List.foldl_cons, addByteCounts_countChunk, ih, List.flatten_cons,
      List.flatten_append, List.append_assoc]

/-- C18: for clean chunkings, the histogram of a concatenation is the
`addByteCounts` merge of the histograms of its parts, the histogram of the empty
input is all zero, and scanning files one after the other and merging gives the
histogram of their concatenation. -/
theorem scan_concat_is_merge (w : Nat) :
    (∀ cs ct cst : List (List Byte), cst.flatten = cs.flatten ++ ct.flatten →
      ∃ hs ht, scanReader w (cleanReads cs) = some (hs, none) ∧
        scanReader w (cleanReads ct) = some (ht, none) ∧
        scanReader w (cleanReads cst) = some (addByteCounts w hs ht, none)) ∧
    (∀ ce : List (List Byte), ce.flatten = [] →
      scanReader w (cleanReads ce) = some (zeroCount, none)) ∧
    (∀ files : List (List (List Byte)),
      files.foldlM
          (fun cum f => (scanReader w (cleanReads f)).map fun r => addByteCounts w cum r.1)
          zeroCount
        = (scanReader w (cleanReads files.flatten)).map fun r => r.1) := by
  refine ⟨fun cs ct cst h => ?_, fun ce h => ?_, fun files => ?_⟩
  · refine ⟨_, _, scanReader_cleanReads w cs, scanReader_cleanReads w ct, ?_⟩
    rw [scanReader_cleanReads, h, addByteCounts_countChunk]
  · rw [scanReader_cleanReads, h]
    rfl
  · have hbody : (fun (cum : ByteCount) (f : List (List Byte)) =>
          (scanReader w (cleanReads f)).map fun r => addByteCounts w cum r.1)
        = fun cum f => some (addByteCounts w cum (countChunk w zeroCount f.flatten)) := by
      funext cum f
      rw [scanReader_cleanReads]
      rfl
    rw [hbody, foldlM_some, scanReader_cleanReads]
    have := merge_fold w files []
    rw [List.nil_append] at this
    exact congrArg some this

theorem scan_concat_is_merge_witness :
    ∃ hs ht, scanReader 64 (cleanReads [[65], [66]]) = some (hs, none) ∧
      scanReader 64 (cleanReads [[], [65]]) = some (ht, none) ∧
      scanReader 64 (cleanReads [[65, 66, 65]]) = some (addByteCounts 64 hs ht, none) :=
  (scan_concat_is_merge 64).1 [[65], [66]] [[], [65]] [[65, 66, 65]] (by decide)

/-! ## Scenario B -/

theorem count_replicate_byte (n : Nat) (a b : Byte) :
    (List.replicate n a).count b = if b = a then n else 0 := by
  by_cases hb : b = a
  · rw [if_pos hb, hb, List.count_replicate_self]
  · rw [if_neg hb, List.count_replicate]
    have hne : ¬ (a == b) = true := by
      intro h
      exact hb (eq_of_beq h).symm
    rw [if_neg hne]

/-- The histogram of 100 bytes `0x41` scanned with a clean end-of-input. -/
theorem scan_hundred_A (w : Nat) (hw : 25500 < intHalf w) (data : List Byte)
    (hdata : data = List.replicate 100 (65 : Byte)) (b : Byte) :
    countChunk w zeroCount data b = if b = 65 then 100 else 0 := by
  rw [countChunk_zero, hdata, count_replicate_byte]
  by_cases hb : b = 65
  · rw [if_pos hb, if_pos hb]
    exact wrapInt_of_inRange ⟨by push_cast; omega, by push_cast; omega⟩
  · rw [if_neg hb, if_neg hb]
    exact wrapInt_of_inRange (zero_inRange w)

/-- C16: 100 bytes of value `0x41`, under any chunking with a clean
end-of-input, scan to bucket 65 = 100 and 0 elsewhere; with `include_zero` false
they normalise to 255 at index 65 and 0 elsewhere; and the image has intensity 0
at column 1, row 4 and 255 at each of the other 255 pixels. -/
theorem scenario_B (w : Nat) (hw : 25500 < intHalf w) (chunks : List (List Byte))
    (hchunks : chunks.flatten = List.replicate 100 (65 : Byte)) :
    ∃ bc normalized img,
      scanReader w (cleanReads chunks) = some (bc, none) ∧
      bc 65 = 100 ∧ (∀ b : Byte, b ≠ 65 → bc b = 0) ∧
      normalizeByteCount w false bc = some normalized ∧
      normalized 65 = 255 ∧ (∀ b : Byte, b ≠ 65 → normalized b = 0) ∧
      byteCountToImage w false bc = some img ∧
      img.rect = { minX := 0, minY := 0, maxX := 16, maxY := 16 } ∧
      img.At 1 4 = 0 ∧
      (∀ x y : Int, 0 ≤ x → x < 16 → 0 ≤ y → y < 16 → ¬ (x = 1 ∧ y = 4) →
        img.At x y = 255) := by
  have hbc : ∀ b : Byte,
      countChunk w zeroCount chunks.flatten b = if b = 65 then 100 else 0 :=
    fun b => scan_hundred_A w hw _ hchunks b
  have hbc65 : countChunk w zeroCount chunks.flatten 65 = 100 := by
    rw [hbc 65, if_pos rfl]
  have hbc0 : ∀ b : Byte, b ≠ 65 → countChunk w zeroCount chunks.flatten b = 0 :=
    fun b hb => by rw [hbc b, if_neg hb]
  have hmax : maxValOf false (countChunk w zeroCount chunks.flatten) = 100 := by
    apply maxValOf_unique false _ 100 (by decide)
    · intro i _
      rw [hbc i]
      split <;> decide
    · exact ⟨65, Or.inr (by decide), hbc65⟩
  obtain ⟨n, hn, hentry⟩ :=
    normalizeByteCount_entry w false (countChunk w zeroCount chunks.flatten)
      (by rw [hmax]; decide)
  have hn65 : n 65 = 255 := by
    have h := (hentry 65 (by rw [hbc65]; decide) (by rw [hbc65]; omega)
      (by rw [hbc65, hmax]; decide)).2
    rw [hbc65, hmax] at h
    have : (100 : Int) * 255 / 100 = 255 := by decide
    omega
  have hn0 : ∀ b : Byte, b ≠ 65 → n b = 0 := by
    intro b hb
    have hp := intHalf_pos w
    have h := (hentry b (by rw [hbc0 b hb]) (by rw [hbc0 b hb]; omega)
      (by rw [hbc0 b hb, hmax]; decide)).2
    rw [hbc0 b hb, hmax] at h
    have : (0 : Int) * 255 / 100 = 0 := by decide
    omega
  obtain ⟨hrect, hpix⟩ := rasterLoop_spec n
  have himg : byteCountToImage w false (countChunk w zeroCount chunks.flatten)
      = some (rasterImage n) :=
    byteCountToImage_of_normalized w false _ n hn
  refine ⟨_, n, rasterImage n, scanReader_cleanReads w chunks, hbc65, hbc0, hn, hn65, hn0,
    himg, hrect, ?_, ?_⟩
  · have h := hpix 65
    rw [hn65] at h
    exact h
  · intro x y hx0 hx1 hy0 hy1 hne
    have hlt : (y * 16 + x).toNat < 256 := by omega
    have h := hpix ⟨(y * 16 + x).toNat, hlt⟩
    have hx : (((⟨(y * 16 + x).toNat, hlt⟩ : Byte).val : Int)) % 16 = x := by
      dsimp only
      omega
    have hy : (((⟨(y * 16 + x).toNat, hlt⟩ : Byte).val : Int)) / 16 = y := by
      dsimp only
      omega
    have hi : (⟨(y * 16 + x).toNat, hlt⟩ : Byte) ≠ 65 := by
      intro heq
      have hv := congrArg Fin.val heq
      have h65 : ((65 : Byte) : Nat) = 65 := rfl
      rw [h65] at hv
      dsimp only at hv
      apply hne
      constructor <;> omega
    rw [hx, hy, hn0 _ hi] at h
    exact h

theorem scenario_B_witness :
    ∃ bc normalized img,
      scanReader 64 (cleanReads [List.replicate 60 65, [], List.replicate 40 65])
        = some (bc, none) ∧
      bc 65 = 100 ∧ normalizeByteCount 64 false bc = some normalized ∧
      normalized 65 = 255 ∧ byteCountToImage 64 false bc = some img ∧ img.At 1 4 = 0 := by
  obtain ⟨bc, n, img, h1, h2, _, h4, h5, _, h7, _, h9, _⟩ :=
    scenario_B 64 (by decide) [List.replicate 60 65, [], List.replicate 40 65] (by decide)
  exact ⟨bc, n, img, h1, h2, h4, h5, h7, h9⟩

end ByteAnalyzer
